import Mathlib

/-!
Verification of the hamza-html-builder markup engine.

The definitions below are a shallow embedding of the C++ sources:
`src/document_parser.cpp`, `src/element.cpp`, `src/self_closing_element.cpp`,
`includes/doctype_element.hpp`.  Strings are modelled as `List Char`;
`std::map<std::string,std::string>` is modelled as a key-sorted association
list (`mapInsert` mirrors `operator[]` assignment, keeping keys in the
lexicographic order in which `std::map` iterates); the recursive parser is
modelled with an explicit fuel argument (the C++ recursion always moves to a
strictly shorter suffix, so any fuel larger than the input length suffices).
Fallible C++ code (`throw std::runtime_error`) is modelled with `Except`.
-/

namespace HB

abbrev LC := List Char

/-- Whitespace set used by `trim` and the text-skipping checks:
the C++ code always uses the character class of " \t\n\r". -/
def isWS (c : Char) : Bool := c == ' ' || c == '\t' || c == '\n' || c == '\r'

/-- Embeds `trim` (document_parser.cpp): strips the characters of
" \t\n\r" from both ends, returning "" when everything is whitespace. -/
def trim (s : LC) : LC := ((s.dropWhile isWS).reverse.dropWhile isWS).reverse

/-- Splits a char list at the first character satisfying `p`; the second
component starts with that character, or is `[]` when there is none.
This models `std::string::find(c, pos)` over the suffix. -/
def breakAt (p : Char → Bool) (s : LC) : LC × LC :=
  (s.takeWhile (fun c => !(p c)), s.dropWhile (fun c => !(p c)))

/-- First index at which `pat` occurs in the list, as `std::string::find`. -/
def findSub (pat : LC) : LC → Option Nat
  | [] => if pat.isPrefixOf ([] : LC) then some 0 else none
  | c :: rest =>
    if pat.isPrefixOf (c :: rest) then some 0
    else (findSub pat rest).map (· + 1)

def containsSub (pat : LC) (s : LC) : Bool := (findSub pat s).isSome

/-- Lexicographic order on char lists, as `std::string::operator<`. -/
def lexLt : LC → LC → Bool
  | [], [] => false
  | [], _ :: _ => true
  | _ :: _, [] => false
  | a :: as, b :: bs => if a < b then true else if b < a then false else lexLt as bs

/-- `attributes[key] = value` on the sorted association list modelling
`std::map<std::string,std::string>`: insert in order, overwrite on equality. -/
def mapInsert : List (LC × LC) → LC → LC → List (LC × LC)
  | [], k, v => [(k, v)]
  | (k', v') :: rest, k, v =>
    if lexLt k k' then (k, v) :: (k', v') :: rest
    else if k = k' then (k, v) :: rest
    else (k', v') :: mapInsert rest k v

/-- `attributes.erase(key)` on the association list. -/
def mapErase (m : List (LC × LC)) (k : LC) : List (LC × LC) :=
  m.filter (fun kv => kv.1 ≠ k)

/-- State of the character automaton inside `parse_attributes`:
`cur` is `current`, `openQ` is `did_open_an_attribute`, `key` is
`current_key`, `acc` is the map built so far. -/
structure PAState where
  cur : LC
  openQ : Bool
  key : LC
  acc : List (LC × LC)
deriving Repr

/-- One iteration of the `for` loop of `parse_attributes`
(document_parser.cpp lines 131-167), faithful to the statement order:
first the `=`/accumulate branch, then the quote toggle / space flush. -/
def paStep (st : PAState) (c : Char) : PAState :=
  let st1 :=
    if c == '=' && !st.openQ then { st with key := trim st.cur, cur := [] }
    else { st with cur := st.cur ++ [c] }
  if c == '"' then
    if st1.openQ then
      { st1 with openQ := false
                 acc := mapInsert st1.acc st1.key ((st1.cur.drop 1).dropLast)
                 cur := []
                 key := [] }
    else { st1 with openQ := true }
  else if !st1.openQ && (c == ' ' || c == '\t' || c == '\n') then
    let k := trim st1.cur
    { st1 with cur := []
               key := []
               acc := if k ≠ [] then mapInsert st1.acc k [] else st1.acc }
  else st1

/-- Embeds `parse_attributes` (document_parser.cpp lines 120-183):
runs the automaton over the trimmed attribute text, flushes a pending
bare key at the end, then erases the keys "", "/" and " ". -/
def parse_attributes (attr_string : LC) : List (LC × LC) :=
  if attr_string = [] then []
  else
    let st := (trim attr_string).foldl paStep ⟨[], false, [], []⟩
    let acc :=
      if st.cur ≠ [] then
        let k := trim st.cur
        if k ≠ [] then mapInsert st.acc k [] else st.acc
      else st.acc
    mapErase (mapErase (mapErase acc []) ['/']) [' ']

/-- The fixed void-element allow-list of `get_self_closing_tags`. -/
def get_self_closing_tags : List LC :=
  ["area", "base", "br", "col", "embed", "hr", "img", "input",
   "link", "meta", "param", "source", "track", "wbr"].map String.data

def lowerChars (s : LC) : LC := s.map Char.toLower

/-- Embeds `is_self_closing_tag`: lowercases the tag and looks it up in the
fixed allow-list.  Note: the C++ checks only this set membership; a trailing
'/' in the tag text plays no role here. -/
def is_self_closing_tag (tag : LC) : Bool :=
  get_self_closing_tags.contains (lowerChars tag)

/-- Embeds `extract_tag_and_attributes`: split the tag content at the first
space; without a space the whole content is the tag name. -/
def extract_tag_and_attributes (tc : LC) : LC × LC :=
  match breakAt (· == ' ') tc with
  | (_, []) => (tc, [])
  | (name, _ :: rest) => (name, rest)

/-- The three C++ node classes: `element`, `self_closing_element`,
`doctype_element`. -/
inductive EKind where
  | regular
  | selfClosing
  | doctype
deriving DecidableEq, Repr

/-- A node: kind discriminant plus the four data fields that the base class
`element` declares (`tag`, `text_content`, `attributes`, `children`).
Subclasses in C++ add no fields, only virtual overrides, so one constructor
with a kind tag is a faithful model. -/
inductive Elem where
  | mk (kind : EKind) (tag : LC) (text : LC) (attrs : List (LC × LC)) (children : List Elem)

def Elem.kind : Elem → EKind | .mk k _ _ _ _ => k
def Elem.tag : Elem → LC | .mk _ t _ _ _ => t
def Elem.text : Elem → LC | .mk _ _ x _ _ => x
def Elem.attrs : Elem → List (LC × LC) | .mk _ _ _ a _ => a
def Elem.children : Elem → List Elem | .mk _ _ _ _ c => c

/-- The parse errors thrown by the C++ code (`std::runtime_error` with the
corresponding messages), plus a fuel marker that a sufficiently large fuel
never produces. -/
inductive PErr where
  | unterminatedTag
  | unterminatedClosing
  | mismatch (expected found : LC)
  | unterminatedComment
  | outOfFuel
deriving DecidableEq, Repr

/-- Text handling of the main parser: a chunk becomes a text node — a plain
`element` with tag "text" — only when it contains a non-whitespace char. -/
def textElems (pre : LC) : List Elem :=
  if pre.any (fun c => !isWS c) then [Elem.mk .regular "text".data pre [] []] else []

/-- Embeds `parse_html_optimized` (document_parser.cpp lines 340-461).
The C++ signature is `(html, start, end)` with `end` always `html.length()`;
the position `pos` is modelled by the remaining suffix, and the returned
position by the returned suffix (`[]` for "ran to the end of the range").
Fuel replaces the C++ recursion/loop; every recursive call is on a strictly
shorter suffix, so fuel `> length` never runs out. -/
def parse_html_optimized : Nat → LC → Except PErr (List Elem × LC)
  | 0, _ => .error .outOfFuel
  | fuel + 1, s =>
    match breakAt (· == '<') s with
    | (pre, []) => .ok (textElems pre, [])
    | (pre, lt :: afterLt) =>
      let tes := textElems pre
      match breakAt (· == '>') afterLt with
      | (_, []) => .error .unterminatedTag
      | (tagContent, _ :: afterGt) =>
        match tagContent with
        | [] =>
          match parse_html_optimized fuel afterGt with
          | .error e => .error e
          | .ok (es, r) => .ok (tes ++ es, r)
        | c0 :: _ =>
          if c0 = '/' then .ok (tes, lt :: afterLt)
          else
            let tagName := trim (extract_tag_and_attributes tagContent).1
            let parsedAttrs :=
              parse_attributes (trim (extract_tag_and_attributes tagContent).2)
            if is_self_closing_tag tagName then
              match parse_html_optimized fuel afterGt with
              | .error e => .error e
              | .ok (es, r) =>
                .ok (tes ++ Elem.mk .selfClosing tagName [] parsedAttrs [] :: es, r)
            else
              match parse_html_optimized fuel afterGt with
              | .error e => .error e
              | .ok (children, closing) =>
                let elem := Elem.mk .regular tagName [] parsedAttrs children
                match closing with
                | [] => .ok (tes ++ [elem], [])
                | _ :: _ =>
                  match breakAt (· == '>') closing with
                  | (_, []) => .error .unterminatedClosing
                  | (cpre, _ :: afterC) =>
                    let content := cpre.drop 1
                    if (1 < content.length ∧ content.headD ' ' = '/') ∧
                        trim (content.drop 1) ≠ tagName then
                      .error (.mismatch tagName (trim (content.drop 1)))
                    else
                      match parse_html_optimized fuel afterC with
                      | .error e => .error e
                      | .ok (es, r) => .ok (tes ++ elem :: es, r)

/-- Embeds `solve_recursive`: run the core parser on the whole string and
keep only the forest, discarding the stop position. -/
def solve_recursive (s : LC) : Except PErr (List Elem) :=
  match parse_html_optimized (s.length + 1) s with
  | .error e => .error e
  | .ok (es, _) => .ok es

/-- Attribute rendering shared by `element::to_string` and
`self_closing_element::to_string`: ` key` for an empty value, otherwise
` key="value"`, iterating the map in its sorted key order. -/
def attrsToStr (attrs : List (LC × LC)) : LC :=
  attrs.foldl
    (fun acc kv =>
      if kv.2 = [] then acc ++ ' ' :: kv.1
      else acc ++ ' ' :: kv.1 ++ '=' :: '"' :: kv.2 ++ ['"'])
    []

mutual
/-- Embeds the virtual `to_string`: `doctype_element::to_string` prints
`<!DOCTYPE text>`, `self_closing_element::to_string` prints `<tag attrs />`,
and `element::to_string` handles the "NO_TAG" and empty-tag specials and
otherwise prints `<tag attrs>\n text \n children </tag>\n`. -/
def Elem.toStr : Elem → LC
  | .mk .doctype _ text _ _ => "<!DOCTYPE ".data ++ text ++ ['>']
  | .mk .selfClosing tag _ attrs _ => '<' :: tag ++ attrsToStr attrs ++ " />".data
  | .mk .regular tag text attrs children =>
    if tag = "NO_TAG".data then text
    else if tag = [] then toStrForest children
    else
      '<' :: tag ++ attrsToStr attrs ++ '>' :: '\n' :: text ++ '\n' ::
        toStrForest children ++ '<' :: '/' :: tag ++ ['>', '\n']

/-- Concatenation of the serializations of a forest, in order. -/
def toStrForest : List Elem → LC
  | [] => []
  | e :: es => e.toStr ++ toStrForest es
end

/-- Embeds `remove_all_comments` (document_parser.cpp lines 244-254) as a
fueled loop carrying the already-scanned prefix: find `<!--`, require a
matching `-->` (else the C++ throws), erase the span, resume at the same
position. -/
def remove_all_comments : Nat → LC → LC → Except PErr LC
  | 0, _, _ => .error .outOfFuel
  | fuel + 1, done, rest =>
    match findSub "<!--".data rest with
    | none => .ok (done ++ rest)
    | some i =>
      match findSub "-->".data (rest.drop (i + 4)) with
      | none => .error .unterminatedComment
      | some j => remove_all_comments fuel (done ++ rest.take i) (rest.drop (i + 4 + j + 3))

/-- Embeds `transform_tags_to_lower_case` (document_parser.cpp lines 62-82):
for each `<...>` span, lowercase the characters strictly between `<` and the
first of (first space after `<`, the `>`), then continue after the `>`.
A `<` with no following `>` ends the loop leaving the remainder unchanged. -/
def transform_tags_to_lower_case : Nat → LC → LC → LC
  | 0, done, rest => done ++ rest
  | fuel + 1, done, rest =>
    match breakAt (· == '<') rest with
    | (_, []) => done ++ rest
    | (pre, lt :: rest1) =>
      match breakAt (· == '>') rest1 with
      | (_, []) => done ++ rest
      | (mid, gt :: rest2) =>
        let (tagPart, spaceRest) := breakAt (· == ' ') mid
        transform_tags_to_lower_case fuel
          (done ++ pre ++ lt :: (lowerChars tagPart ++ spaceRest ++ [gt])) rest2

/-- Embeds `remove_all_line_breaks`: deletes every newline character. -/
def remove_all_line_breaks (s : LC) : LC := s.filter (fun c => c ≠ '\n')

/-- Embeds `has_doctype`: literal search for "<!doctype". -/
def has_doctype (s : LC) : Bool := containsSub "<!doctype".data s

/-- Embeds `extract_doctype`: returns the html with the `<!doctype ...>` span
erased together with the extracted span (still including "<!doctype" and the
closing `>`); when the `>` is missing the string is returned unchanged with
an empty extract. -/
def extract_doctype (s : LC) : LC × LC :=
  match findSub "<!doctype".data s with
  | none => (s, [])
  | some i =>
    match breakAt (· == '>') (s.drop i) with
    | (_, []) => (s, [])
    | (dt, gt :: after) => (s.take i ++ after, dt ++ [gt])

/-- Embeds `parse_html_string` (document_parser.cpp lines 484-510): comment
removal, tag lowercasing, line-break removal, doctype extraction (the stored
span loses its last char by `pop_back` and its first NINE chars by
`erase(begin, begin+9)` — nine, not ten, so the char after "<!doctype" stays
in the payload), then the recursive parse, with the synthetic doctype node
prepended. -/
def parse_html_string (s : LC) : Except PErr (List Elem) :=
  match remove_all_comments (s.length + 1) [] s with
  | .error e => .error e
  | .ok s1 =>
    let s2 := transform_tags_to_lower_case (s1.length + 1) [] s1
    let s3 := remove_all_line_breaks s2
    let pr := if has_doctype s3 then extract_doctype s3 else (s3, [])
    let dnodes : List Elem :=
      if pr.2 ≠ [] then [Elem.mk .doctype "!DOCTYPE".data ((pr.2.dropLast).drop 9) [] []]
      else []
    match solve_recursive pr.1 with
    | .error e => .error e
    | .ok es => .ok (dnodes ++ es)

/-- The inner `while` loop of `parse_html_with_params` for one placeholder,
with structural fuel (any fuel at least the input length is enough): scan
left to right; on a match emit the value and resume right after the
inserted value (i.e. on the suffix following the matched placeholder). -/
def replaceAllAux (pl v : LC) : Nat → LC → LC
  | 0, s => s
  | _ + 1, [] => []
  | fuel + 1, c :: rest =>
    if pl.isPrefixOf (c :: rest) then v ++ replaceAllAux pl v fuel (rest.drop (pl.length - 1))
    else c :: replaceAllAux pl v fuel rest

def replaceAll (pl v s : LC) : LC := replaceAllAux pl v s.length s

/-- The `"\x7b\x7b" + key + "\x7d\x7d"` placeholder of
`parse_html_with_params`. -/
def placeholder (k : LC) : LC := '\x7b' :: '\x7b' :: k ++ ['\x7d', '\x7d']

/-- Embeds `parse_html_with_params`: for each map entry, in the sorted key
order in which `std::map` iterates (the list argument stands for that
iteration sequence), exhaustively replace the entry's placeholder. -/
def parse_html_with_params (text : LC) (params : List (LC × LC)) : LC :=
  params.foldl (fun acc kv => replaceAll (placeholder kv.1) kv.2 acc) text

/-- Virtual `add_child`: `self_closing_element::add_child` ignores the call;
`element::add_child` (inherited by `doctype_element`) appends to the stored
children vector. -/
def add_child : Elem → Elem → Elem
  | .mk .selfClosing t x a ch, _c => .mk .selfClosing t x a ch
  | .mk k t x a ch, c => .mk k t x a (ch ++ [c])

/-- Virtual `set_text_content`: `self_closing_element::set_text_content`
ignores the call; `element::set_text_content` (inherited by
`doctype_element`) overwrites the stored text. -/
def set_text_content : Elem → LC → Elem
  | .mk .selfClosing t x a ch, _ => .mk .selfClosing t x a ch
  | .mk k t _x a ch, v => .mk k t v a ch

/-- The mutating operations quantified over in the frame claim. -/
inductive NodeOp where
  | addChild (c : Elem)
  | setText (v : LC)

def applyOp (e : Elem) : NodeOp → Elem
  | .addChild c => add_child e c
  | .setText v => set_text_content e v

def applyOps (e : Elem) (ops : List NodeOp) : Elem := ops.foldl applyOp e

/-- Lookup in the association-list map. -/
def mapFind : List (LC × LC) → LC → Option LC
  | [], _ => none
  | (k', v') :: rest, k => if k = k' then some v' else mapFind rest k

/-- Specification-level description of one key's substitution pass: split the
text at the leftmost non-overlapping placeholder occurrences (structural
fuel as in `replaceAllAux`).  The pieces depend only on the input text and
the placeholder, never on the replacement value — which is exactly the
spec's "inserted text is never rescanned". -/
def splitOnSubAux (pl : LC) : Nat → LC → List LC
  | 0, s => [s]
  | _ + 1, [] => [[]]
  | fuel + 1, c :: rest =>
    if pl.isPrefixOf (c :: rest) then [] :: splitOnSubAux pl fuel (rest.drop (pl.length - 1))
    else
      match splitOnSubAux pl fuel rest with
      | [] => [[c]]
      | p :: ps => (c :: p) :: ps

def splitOnSub (pl s : LC) : List LC := splitOnSubAux pl s.length s

/-- Joining the split pieces with the replacement value. -/
def joinWith (v : LC) : List LC → LC
  | [] => []
  | [p] => p
  | p :: ps => p ++ v ++ joinWith v ps

mutual
/-- Every Void (self-closing) node of the tree carries an allow-listed tag. -/
def voidsOk : Elem → Bool
  | .mk k t _ _ ch =>
    (match k with
     | .selfClosing => is_self_closing_tag t
     | _ => true) && voidsOkF ch

def voidsOkF : List Elem → Bool
  | [] => true
  | e :: es => voidsOk e && voidsOkF es
end

mutual
/-- Nesting depth of a node, used to compare tree structure. -/
def Elem.depth : Elem → Nat
  | .mk _ _ _ _ ch => depthF ch + 1

def depthF : List Elem → Nat
  | [] => 0
  | e :: es => max e.depth (depthF es)
end

end HB

namespace HB

/-! ## Well-formedness of parser-producible, text-free trees (for the
round-trip claim) -/

/-- Lowercase ASCII letter. -/
def isLowerAlpha (c : Char) : Bool := 97 ≤ c.toNat && c.toNat ≤ 122

/-- Well-formed tag name: nonempty, lowercase letters only. -/
def wfTag (t : LC) : Bool := !t.isEmpty && t.all isLowerAlpha

/-- Characters allowed in a well-formed attribute key: ASCII letters,
digits, hyphen. -/
def wfKeyChar (c : Char) : Bool :=
  (65 ≤ c.toNat && c.toNat ≤ 90) || (97 ≤ c.toNat && c.toNat ≤ 122) ||
  (48 ≤ c.toNat && c.toNat ≤ 57) || c == '-'

def wfKey (k : LC) : Bool := !k.isEmpty && k.all wfKeyChar

/-- Characters allowed in a well-formed attribute value: anything except
the double quote and the angle brackets. -/
def wfValChar (c : Char) : Bool := !(c == '"' || c == '<' || c == '>')

def wfVal (v : LC) : Bool := v.all wfValChar

/-- Well-formed attribute map: well-formed keys and values, each key
`lexLt`-smaller than every later key (the sorted, duplicate-free shape in
which `std::map` hands the attributes to the serializer). -/
def wfAttrs : List (LC × LC) → Bool
  | [] => true
  | (k, v) :: rest =>
    wfKey k && wfVal v && rest.all (fun kw => lexLt k kw.1) && wfAttrs rest

mutual
/-- Well-formed text-free node as the parser itself produces: a Regular
node with a non-void lowercase tag, empty text, well-formed attributes and
well-formed children, or a Void node with an allow-listed tag, empty text
and no children.  Text nodes and Doctype nodes are excluded. -/
def wfElem : Elem → Bool
  | .mk .regular t x a ch =>
    wfTag t && !is_self_closing_tag t && x.isEmpty && wfAttrs a && wfForest ch
  | .mk .selfClosing t x a ch =>
    get_self_closing_tags.contains t && wfTag t && x.isEmpty && wfAttrs a && ch.isEmpty
  | .mk .doctype _ _ _ _ => false

def wfForest : List Elem → Bool
  | [] => true
  | e :: es => wfElem e && wfForest es
end

/-- The serializer's text for a single attribute without its leading
space. -/
def unitBody (kv : LC × LC) : LC :=
  kv.1 ++ (if kv.2 = [] then [] else '=' :: '"' :: kv.2 ++ ['"'])

/-- The serializer's text for an attribute list (each entry prefixed by one
space). -/
def renderAttrs : List (LC × LC) → LC
  | [] => []
  | kv :: rest => ' ' :: unitBody kv ++ renderAttrs rest

/-- Abstract run of the `parse_attributes` automaton over rendered units:
state is (pending bare key, map built so far); a unit's leading space first
flushes the pending bare key, then a valued unit inserts its pair while a
bare unit becomes the new pending key. -/
def paRun : LC → List (LC × LC) → List (LC × LC) → LC × List (LC × LC)
  | p, acc, [] => (p, acc)
  | p, acc, (k, v) :: rest =>
    let acc1 := if p = [] then acc else mapInsert acc p []
    if v = [] then paRun k acc1 rest else paRun [] (mapInsert acc1 k v) rest

/-- Final flush of a pending bare key. -/
def flushP (p : LC) (acc : List (LC × LC)) : List (LC × LC) :=
  if p = [] then acc else mapInsert acc p []

/-! ## Heap model for the deep-copy claim.

`element::copy` in C++ operates on an object graph of `shared_ptr`s; to
state aliasing/independence we model the graph explicitly: a store is a
list of nodes indexed by position, children are stored as indices, and
fresh allocation appends at the end (`make_shared`).  `element::copy`
returns `element` BY VALUE with no override in the subclasses, so every
copied node — including copies of `self_closing_element` and
`doctype_element` children — is sliced down to a plain `element`
(kind Regular), keeping the base-class fields. -/

/-- One heap node: the dynamic class of the object plus the four base
fields of `element` (children as store indices). -/
structure Node where
  kind : EKind
  tag : LC
  text : LC
  attrs : List (LC × LC)
  childIds : List Nat

def defaultNode : Node := ⟨.regular, [], [], [], []⟩

/-- The object store; an id is an index, allocation appends. -/
abbrev Store := List Node

def getN (s : Store) (i : Nat) : Node := (s[i]?).getD defaultNode

def setN (s : Store) (i : Nat) (nd : Node) : Store := s.set i nd

/-- Embeds `element::copy` over a list of roots, with structural fuel:
copy the node's children recursively (left to right), then allocate the
copied node — ALWAYS as a plain `element` (kind Regular: the C++ virtual
`copy` returns `element` by value, slicing subclasses), with the same
tag, text and attribute fields and the freshly copied children. -/
def copyList : Nat → Store → List Nat → Option (Store × List Nat)
  | 0, _, _ => none
  | _ + 1, s, [] => some (s, [])
  | fuel + 1, s, i :: is =>
    match copyList fuel s (getN s i).childIds with
    | none => none
    | some (s1, newIds) =>
      match copyList fuel
          (s1 ++ [Node.mk .regular (getN s i).tag (getN s i).text (getN s i).attrs newIds]) is with
      | none => none
      | some (s3, js) => some (s3, s1.length :: js)

/-- Reads the object graph back as pure trees, also returning every id the
traversal touched (fuel bounds the depth; a cyclic graph never reads
back). -/
def readbackL : Nat → Store → List Nat → Option (List Elem × List Nat)
  | 0, _, _ => none
  | _ + 1, _, [] => some ([], [])
  | fuel + 1, s, i :: is =>
    match readbackL fuel s (getN s i).childIds with
    | none => none
    | some (ts, ids1) =>
      match readbackL fuel s is with
      | none => none
      | some (es, ids2) =>
        some (Elem.mk (getN s i).kind (getN s i).tag (getN s i).text (getN s i).attrs ts :: es,
          i :: (ids1 ++ ids2))

mutual
/-- What slicing does to a tree: every node's kind collapses to Regular,
all data fields and the structure are kept. -/
def regE : Elem → Elem
  | .mk _ t x a ch => .mk .regular t x a (regF ch)

def regF : List Elem → List Elem
  | [] => []
  | e :: es => regE e :: regF es
end

mutual
/-- Every node of the tree is a plain Regular element. -/
def allRegE : Elem → Bool
  | .mk k _ _ _ ch => (k == .regular) && allRegF ch

def allRegF : List Elem → Bool
  | [] => true
  | e :: es => allRegE e && allRegF es
end

/-! ## Helper lemmas -/

theorem splitOnSubAux_ne_nil (pl : LC) : ∀ fuel s, splitOnSubAux pl fuel s ≠ []
  | 0, s => by simp [splitOnSubAux]
  | fuel + 1, [] => by simp [splitOnSubAux]
  | fuel + 1, c :: rest => by
    simp only [splitOnSubAux]
    split
    · simp
    · split
      · simp
      · simp

theorem replaceAllAux_eq_joinWith (pl v : LC) :
    ∀ fuel s, s.length ≤ fuel →
      replaceAllAux pl v fuel s = joinWith v (splitOnSubAux pl fuel s) := by
  intro fuel
  induction fuel with
  | zero =>
    intro s hs
    have : s = [] := List.length_eq_zero.mp (Nat.le_zero.mp hs)
    subst this
    simp [replaceAllAux, splitOnSubAux, joinWith]
  | succ fuel ih =>
    intro s hs
    match s with
    | [] => simp [replaceAllAux, splitOnSubAux, joinWith]
    | c :: rest =>
      simp only [replaceAllAux, splitOnSubAux]
      by_cases hp : pl.isPrefixOf (c :: rest)
      · simp only [hp, if_true]
        have h1 : rest.length ≤ fuel := by
          simp only [List.length_cons] at hs
          omega
        have hlen : (rest.drop (pl.length - 1)).length ≤ fuel := by
          calc (rest.drop (pl.length - 1)).length ≤ rest.length := by
                simp [List.length_drop]
            _ ≤ fuel := h1
        rw [ih _ hlen]
        rcases hsp : splitOnSubAux pl fuel (rest.drop (pl.length - 1)) with _ | ⟨p, ps⟩
        · exact absurd hsp (splitOnSubAux_ne_nil pl fuel _)
        · simp [joinWith]
      · simp only [hp, if_false]
        have hlen : rest.length ≤ fuel := by
          simp only [List.length_cons] at hs
          omega
        rw [ih _ hlen]
        rcases hsp : splitOnSubAux pl fuel rest with _ | ⟨p, ps⟩
        · exact absurd hsp (splitOnSubAux_ne_nil pl fuel _)
        · rcases ps with _ | ⟨q, qs⟩
          · simp [joinWith]
          · simp [joinWith]

theorem containsSub_cons (pl : LC) (c : Char) (rest : LC) :
    containsSub pl (c :: rest) = (pl.isPrefixOf (c :: rest) || containsSub pl rest) := by
  simp only [containsSub, findSub]
  split
  · simp_all
  · simp_all [Option.isSome_map]

theorem replaceAllAux_no_occ (pl v : LC) :
    ∀ fuel s, containsSub pl s = false → replaceAllAux pl v fuel s = s := by
  intro fuel
  induction fuel with
  | zero => intro s _; simp [replaceAllAux]
  | succ fuel ih =>
    intro s hc
    match s with
    | [] => simp [replaceAllAux]
    | c :: rest =>
      rw [containsSub_cons] at hc
      simp only [Bool.or_eq_false_iff] at hc
      simp only [replaceAllAux, hc.1, Bool.false_eq_true, if_false]
      rw [ih _ hc.2]

theorem voidsOkF_append (a b : List Elem) :
    voidsOkF (a ++ b) = (voidsOkF a && voidsOkF b) := by
  induction a with
  | nil => simp [voidsOkF]
  | cons e es ih => simp [voidsOkF, ih, Bool.and_assoc]

theorem voidsOkF_textElems (pre : LC) : voidsOkF (textElems pre) = true := by
  unfold textElems
  split
  · simp [voidsOkF, voidsOk]
  · simp [voidsOkF]

theorem takeWhile_append_cons (q : Char → Bool) (a : LC) (c : Char) (b : LC)
    (ha : ∀ x ∈ a, q x = true) (hc : q c = false) :
    (a ++ c :: b).takeWhile q = a := by
  induction a with
  | nil => simp [List.takeWhile_cons, hc]
  | cons x xs ih =>
    have hx : q x = true := ha x (by simp)
    simp only [List.cons_append, List.takeWhile_cons, hx, if_true]
    rw [ih (fun y hy => ha y (by simp [hy]))]

theorem dropWhile_append_cons (q : Char → Bool) (a : LC) (c : Char) (b : LC)
    (ha : ∀ x ∈ a, q x = true) (hc : q c = false) :
    (a ++ c :: b).dropWhile q = c :: b := by
  induction a with
  | nil => simp [List.dropWhile_cons, hc]
  | cons x xs ih =>
    have hx : q x = true := ha x (by simp)
    simp only [List.cons_append, List.dropWhile_cons, hx, if_true]
    exact ih (fun y hy => ha y (by simp [hy]))

theorem breakAt_append_cons (p : Char → Bool) (a : LC) (c : Char) (b : LC)
    (ha : ∀ x ∈ a, p x = false) (hc : p c = true) :
    breakAt p (a ++ c :: b) = (a, c :: b) := by
  unfold breakAt
  rw [takeWhile_append_cons _ a c b (fun x hx => by simp [ha x hx]) (by simp [hc]),
    dropWhile_append_cons _ a c b (fun x hx => by simp [ha x hx]) (by simp [hc])]

/-! ## Theorems -/

/-- Claim C1, counterexample: parsing "<div><p>Hi</div>" does NOT succeed;
the recursive child parse of `p` stops at `</div>`, and the name check then
throws the mismatched-closing-tag error (expected "p", found "div"),
contrary to the claim that the missing `</p>` never raises
MismatchedClosingTag. -/
theorem claim1_counterexample :
    parse_html_string "<div><p>Hi</div>".data =
      .error (.mismatch "p".data "div".data) := by
  rfl

/-- Claim C1, amended: parsing "<div><p>Hi</div>" fails with
MismatchedClosingTag (expected "p", found "div"); the implicit auto-close
without error happens only when the range ends with no closing tag at all,
e.g. "<div><p>Hi" parses with no error into div containing p containing the
text "Hi". -/
theorem claim1_amended :
    parse_html_string "<div><p>Hi</div>".data =
      .error (.mismatch "p".data "div".data) ∧
    parse_html_string "<div><p>Hi".data =
      .ok [Elem.mk .regular "div".data [] []
            [Elem.mk .regular "p".data [] []
              [Elem.mk .regular "text".data "Hi".data [] []]]] := by
  exact ⟨rfl, rfl⟩

/-- Claim C2, counterexample: Parse("<customtag/>") does not produce a Void
node; the trailing '/' is not detected (only the allow-list is consulted),
so the result is a single Regular node whose tag is literally "customtag/". -/
theorem claim2_counterexample :
    parse_html_string "<customtag/>".data =
      .ok [Elem.mk .regular "customtag/".data [] [] []] ∧
    (Elem.mk .regular "customtag/".data [] [] [] : Elem).kind ≠ .selfClosing := by
  exact ⟨rfl, by decide⟩

/-- Claim C3, counterexample: `doctype_element` inherits
`element::set_text_content`, so "set text" on a Doctype node replaces the
doctype payload and changes the serialized output. -/
theorem claim3_counterexample :
    Elem.toStr (set_text_content (Elem.mk .doctype "!DOCTYPE".data "html".data [] []) "xml".data) ≠
      Elem.toStr (Elem.mk .doctype "!DOCTYPE".data "html".data [] []) := by
  decide

/-- Claim C4, counterexample: with params left in ascending key order as
`std::map` iterates them, the value inserted for key "a" IS rescanned when
the later key "b" is processed: substituting in "\x7b\x7ba\x7d\x7d" with
a ↦ "\x7b\x7bb\x7d\x7d", b ↦ "X" yields "X", a nested expansion, not the
claimed "\x7b\x7bb\x7d\x7d". -/
theorem claim4_counterexample :
    parse_html_with_params "\x7b\x7ba\x7d\x7d".data
        [("a".data, "\x7b\x7bb\x7d\x7d".data), ("b".data, "X".data)] = "X".data ∧
    "X".data ≠ "\x7b\x7bb\x7d\x7d".data := by
  exact ⟨rfl, by decide⟩

/-- Claim C7: the code removes only NINE characters ("<!doctype", without
the following space) from the extracted span, contradicting its own comment
`Remove "<!doctype "`; the payload of the synthetic Doctype node for input
"<!DOCTYPE html><html></html>" is therefore " html" (leading space kept),
and the node serializes with a double space as "<!DOCTYPE  html>". -/
theorem claim7_theorem :
    parse_html_string "<!DOCTYPE html><html></html>".data =
      .ok [Elem.mk .doctype "!DOCTYPE".data " html".data [] [],
           Elem.mk .regular "html".data [] [] []] ∧
    Elem.toStr (Elem.mk .doctype "!DOCTYPE".data " html".data [] []) =
      "<!DOCTYPE  html>".data := by
  exact ⟨rfl, rfl⟩

/-- Claim C8: attribute parsing maps `class="a b" disabled` to exactly
\x7bclass: "a b", disabled: ""\x7d (quoted value with whitespace paired with
the key before '=', bare token stored with empty value); a duplicated key
keeps the later occurrence, both concretely and in general for the map
assignment `attributes[k] = v` used by the automaton. -/
theorem claim8_theorem :
    parse_attributes "class=\"a b\" disabled".data =
      [("class".data, "a b".data), ("disabled".data, [])] ∧
    parse_attributes "a=\"1\" a=\"2\"".data = [("a".data, "2".data)] ∧
    ∀ m k v, mapFind (mapInsert m k v) k = some v := by
  refine ⟨rfl, rfl, ?_⟩
  intro m k v
  induction m with
  | nil => simp [mapInsert, mapFind]
  | cons kv rest ih =>
    obtain ⟨k', v'⟩ := kv
    simp only [mapInsert]
    by_cases h1 : lexLt k k' = true
    · simp [h1, mapFind]
    · simp only [h1]
      by_cases h2 : k = k'
      · simp [h2, mapFind]
      · simp [h2, mapFind, ih]

end HB

namespace HB

/-- Claim C4, amended: within one parameter the scan is genuinely
non-rescanning — the replacement positions are the split of the input text
at leftmost placeholder occurrences, independent of the inserted value
(`replaceAll pl v s = joinWith v (splitOnSub pl s)`), so a value containing
its own key's placeholder, or the placeholder of a key processed earlier in
the ascending key order, is never expanded; but because the parameters are
processed one after the other over the whole current string, a value
containing the placeholder of a key processed later IS expanded. -/
theorem claim4_amended :
    (∀ pl v s, replaceAll pl v s = joinWith v (splitOnSub pl s)) ∧
    parse_html_with_params "\x7b\x7ba\x7d\x7d".data
        [("a".data, "[\x7b\x7ba\x7d\x7d]".data)] = "[\x7b\x7ba\x7d\x7d]".data ∧
    parse_html_with_params "\x7b\x7bb\x7d\x7d".data
        [("a".data, "X".data), ("b".data, "\x7b\x7ba\x7d\x7d".data)] = "\x7b\x7ba\x7d\x7d".data ∧
    parse_html_with_params "\x7b\x7ba\x7d\x7d".data
        [("a".data, "\x7b\x7bb\x7d\x7d".data), ("b".data, "X".data)] = "X".data := by
  refine ⟨fun pl v s => replaceAllAux_eq_joinWith pl v s.length s le_rfl, rfl, rfl, rfl⟩

/-- Claim C9: a placeholder whose key is absent from the map is left
verbatim — in particular a text containing no placeholder of any present
key is returned unchanged — and present keys are replaced:
Substitute("Hello \x7b\x7bname\x7d\x7d!", name ↦ World) = "Hello World!"
and Substitute("\x7b\x7bmissing\x7d\x7d", ∅) is unchanged. -/
theorem claim9_theorem :
    (∀ text params, (∀ kv ∈ params, containsSub (placeholder kv.1) text = false) →
      parse_html_with_params text params = text) ∧
    parse_html_with_params "Hello \x7b\x7bname\x7d\x7d!".data
      [("name".data, "World".data)] = "Hello World!".data ∧
    parse_html_with_params "\x7b\x7bmissing\x7d\x7d".data [] = "\x7b\x7bmissing\x7d\x7d".data := by
  refine ⟨?_, rfl, rfl⟩
  intro text params h
  induction params with
  | nil => rfl
  | cons kv rest ih =>
    simp only [parse_html_with_params, List.foldl_cons]
    rw [show replaceAll (placeholder kv.1) kv.2 text = text from
      replaceAllAux_no_occ _ _ _ _ (h kv (by simp))]
    exact ih (fun kv2 hm => h kv2 (by simp [hm]))

/-- Claim C9, witness: the no-occurrence case applied at a concrete text and
parameter map. -/
theorem claim9_witness :
    parse_html_with_params "abc".data [("k".data, "v".data)] = "abc".data :=
  claim9_theorem.1 "abc".data [("k".data, "v".data)] (by decide)

/-- Claim C3, amended: on a Void (self-closing) node every sequence of
append-child and set-text calls is a silent no-op (the node, hence its
serialization, is unchanged); on a Doctype node append-child leaves the
serialization unchanged (children are stored but ignored by its
`to_string`), but set-text is inherited from `element` unchanged, replaces
the payload, and does change the serialized output. -/
theorem claim3_amended :
    (∀ (e : Elem) (ops : List NodeOp), e.kind = .selfClosing → applyOps e ops = e) ∧
    (∀ (e c : Elem), e.kind = .doctype → (add_child e c).toStr = e.toStr) ∧
    Elem.toStr (set_text_content (Elem.mk .doctype "!DOCTYPE".data "html".data [] []) "xml".data) ≠
      Elem.toStr (Elem.mk .doctype "!DOCTYPE".data "html".data [] []) := by
  refine ⟨?_, ?_, by decide⟩
  · intro e ops h
    have hop : ∀ op, applyOp e op = e := by
      intro op
      obtain ⟨k, t, x, a, ch⟩ := e
      simp only [Elem.kind] at h
      subst h
      cases op with
      | addChild c => simp [applyOp, add_child]
      | setText v => simp [applyOp, set_text_content]
    induction ops with
    | nil => rfl
    | cons op rest ih =>
      simp only [applyOps, List.foldl_cons, hop op]
      exact ih
  · intro e c h
    obtain ⟨k, t, x, a, ch⟩ := e
    simp only [Elem.kind] at h
    subst h
    simp [add_child, Elem.toStr]

/-- Claim C3, witness: the no-op and frame facts applied at concrete nodes:
a `br` Void node under an append-child then set-text sequence, and a
Doctype node under an append-child. -/
theorem claim3_witness :
    applyOps (Elem.mk .selfClosing "br".data [] [] [])
      [.addChild (Elem.mk .regular "p".data [] [] []), .setText "x".data] =
      Elem.mk .selfClosing "br".data [] [] [] ∧
    (add_child (Elem.mk .doctype "!DOCTYPE".data "html".data [] [])
        (Elem.mk .regular "p".data [] [] [])).toStr =
      (Elem.mk .doctype "!DOCTYPE".data "html".data [] []).toStr :=
  ⟨claim3_amended.1 _ _ rfl, claim3_amended.2.1 _ _ rfl⟩

/-- Claim C10: when the top level hits a closing tag that no open element
matches, parsing succeeds and returns exactly the nodes built before that
tag; the stray closing tag and everything after it are discarded (the
top-level call returns at the closing tag and `solve_recursive` drops the
reported stop position). -/
theorem claim10_theorem (pre name tail : LC) (hpre : ∀ c ∈ pre, c ≠ '<') :
    solve_recursive (pre ++ '<' :: '/' :: name ++ '>' :: tail) = .ok (textElems pre) := by
  unfold solve_recursive
  have hb : breakAt (· == '<') (pre ++ '<' :: ('/' :: name ++ '>' :: tail)) =
      (pre, '<' :: ('/' :: name ++ '>' :: tail)) :=
    breakAt_append_cons _ pre '<' _ (fun x hx => by simp [hpre x hx]) (by simp)
  rcases hdrop : ('/' :: name ++ '>' :: tail).dropWhile (fun c => !(c == '>')) with _ | ⟨g, r2⟩
  · exfalso
    have := List.dropWhile_eq_nil_iff.mp hdrop '>' (by simp)
    simp at this
  · have htake : ∃ tc, ('/' :: name ++ '>' :: tail).takeWhile (fun c => !(c == '>')) = '/' :: tc := by
      refine ⟨(name ++ '>' :: tail).takeWhile (fun c => !(c == '>')), ?_⟩
      simp [List.takeWhile_cons]
    obtain ⟨tc, htc⟩ := htake
    have hb2 : breakAt (· == '>') ('/' :: name ++ '>' :: tail) = ('/' :: tc, g :: r2) := by
      unfold breakAt
      rw [htc, hdrop]
    rw [show (pre ++ '<' :: '/' :: name ++ '>' :: tail).length + 1 =
      ((pre ++ '<' :: '/' :: name ++ '>' :: tail).length) + 1 from rfl]
    rw [parse_html_optimized]
    simp only [List.append_assoc, List.cons_append] at hb hb2 ⊢
    rw [hb]
    simp only [hb2]
    rfl

/-- Claim C10, witness: the stray-closing-tag case at the concrete input
"a&lt;/div&gt;b": the text before the stray tag survives, the rest is
dropped. -/
theorem claim10_witness :
    solve_recursive "a</div>b".data = .ok [Elem.mk .regular "text".data "a".data [] []] :=
  claim10_theorem "a".data "div".data "b".data (by decide)

end HB

namespace HB

/-- Invariant of the core parser: every self-closing node it ever constructs
passed the `is_self_closing_tag` allow-list test. -/
theorem parse_voidsOk :
    ∀ fuel s es r, parse_html_optimized fuel s = .ok (es, r) → voidsOkF es = true := by
  intro fuel
  induction fuel with
  | zero => intro s es r h; simp [parse_html_optimized] at h
  | succ fuel ih =>
    intro s es r h
    rw [parse_html_optimized] at h
    dsimp only at h
    split at h
    · -- no '<'
      injection h with h1
      injection h1 with h2 h3
      rw [← h2]
      exact voidsOkF_textElems _
    · -- found '<'
      split at h
      · exact absurd h (by simp)
      · split at h
        · -- empty tag content
          split at h
          · exact absurd h (by simp)
          · next es2 r2 hp =>
            injection h with h1
            injection h1 with h2 h3
            rw [← h2, voidsOkF_append]
            simp [voidsOkF_textElems, ih _ _ _ hp]
        · -- nonempty tag content
          split at h
          · -- closing tag
            injection h with h1
            injection h1 with h2 h3
            rw [← h2]
            exact voidsOkF_textElems _
          · split at h
            · -- self closing
              split at h
              · exact absurd h (by simp)
              · next es2 r2 hp =>
                injection h with h1
                injection h1 with h2 h3
                rw [← h2, voidsOkF_append]
                simp only [Bool.and_eq_true]
                refine ⟨voidsOkF_textElems _, ?_⟩
                simp only [voidsOkF, voidsOk, Bool.and_eq_true]
                refine ⟨⟨?_, by simp [voidsOkF]⟩, ih _ _ _ hp⟩
                assumption
            · -- regular
              split at h
              · exact absurd h (by simp)
              · next ch closing hp =>
                split at h
                · -- closing = []
                  injection h with h1
                  injection h1 with h2 h3
                  rw [← h2, voidsOkF_append]
                  have hch := ih _ _ _ hp
                  simp [voidsOkF_textElems, voidsOkF, voidsOk, hch]
                · -- closing nonempty
                  split at h
                  · exact absurd h (by simp)
                  · split at h
                    · exact absurd h (by simp)
                    · split at h
                      · exact absurd h (by simp)
                      · next es2 r2 hp2 =>
                        injection h with h1
                        injection h1 with h2 h3
                        rw [← h2, voidsOkF_append]
                        have hch := ih _ _ _ hp
                        have hes2 := ih _ _ _ hp2
                        simp [voidsOkF_textElems, voidsOkF, voidsOk, hch, hes2]

/-- Claim C2, amended: an explicit trailing '/' does NOT make a tag
self-closing; only the fixed allow-list does.  Parse("<customtag/>") yields
a Regular node literally tagged "customtag/" (slash kept in the name, no
attributes, no children); for an allow-listed tag the trailing '/' ends up
in the attribute text and is discarded (Parse("<img src=\"x\"/>") gives a
Void `img` with attributes exactly src="x"); and in general every Void node
in any parser output has its (lowercased) tag in the allow-list. -/
theorem claim2_amended :
    parse_html_string "<customtag/>".data =
      .ok [Elem.mk .regular "customtag/".data [] [] []] ∧
    parse_html_string "<img src=\"x\"/>".data =
      .ok [Elem.mk .selfClosing "img".data [] [("src".data, "x".data)] []] ∧
    (∀ fuel s es r, parse_html_optimized fuel s = .ok (es, r) → voidsOkF es = true) := by
  exact ⟨rfl, rfl, parse_voidsOk⟩

/-- Claim C2, witness: the general Void-allow-list invariant applied to the
concrete successful parse of "<img /><p></p>". -/
theorem claim2_witness :
    voidsOkF [Elem.mk .selfClosing "img".data [] [] [],
              Elem.mk .regular "p".data [] [] []] = true :=
  claim2_amended.2.2 20 "<img /><p></p>".data
    [Elem.mk .selfClosing "img".data [] [] [], Elem.mk .regular "p".data [] [] []] [] (by rfl)

end HB

namespace HB

theorem isLowerAlpha_toLower {c : Char} (h : isLowerAlpha c = true) : c.toLower = c := by
  simp only [isLowerAlpha, Bool.and_eq_true, decide_eq_true_eq] at h
  simp only [Char.toLower]
  rw [if_neg]
  omega

theorem isLowerAlpha_ne_slash {c : Char} (h : isLowerAlpha c = true) : c ≠ '/' := by
  intro he; subst he; simp [isLowerAlpha] at h

theorem isLowerAlpha_not_lt {c : Char} (h : isLowerAlpha c = true) : (c == '<') = false := by
  simp only [beq_eq_false_iff_ne, ne_eq]
  intro he; subst he; simp [isLowerAlpha] at h

theorem isLowerAlpha_not_gt {c : Char} (h : isLowerAlpha c = true) : (c == '>') = false := by
  simp only [beq_eq_false_iff_ne, ne_eq]
  intro he; subst he; simp [isLowerAlpha] at h

theorem isLowerAlpha_not_space {c : Char} (h : isLowerAlpha c = true) : (c == ' ') = false := by
  simp only [beq_eq_false_iff_ne, ne_eq]
  intro he; subst he; simp [isLowerAlpha] at h

theorem isLowerAlpha_not_ws {c : Char} (h : isLowerAlpha c = true) : isWS c = false := by
  simp only [isWS, Bool.or_eq_false_iff, beq_eq_false_iff_ne, ne_eq]
  refine ⟨⟨⟨?_, ?_⟩, ?_⟩, ?_⟩ <;> intro he <;> subst he <;> simp [isLowerAlpha] at h

theorem wfKeyChar_not_eq_sign {c : Char} (h : wfKeyChar c = true) : (c == '=') = false := by
  simp only [beq_eq_false_iff_ne, ne_eq]
  intro he; subst he; simp [wfKeyChar] at h

theorem wfKeyChar_not_quote {c : Char} (h : wfKeyChar c = true) : (c == '"') = false := by
  simp only [beq_eq_false_iff_ne, ne_eq]
  intro he; subst he; simp [wfKeyChar] at h

theorem wfKeyChar_not_space {c : Char} (h : wfKeyChar c = true) : (c == ' ') = false := by
  simp only [beq_eq_false_iff_ne, ne_eq]
  intro he; subst he; simp [wfKeyChar] at h

theorem wfKeyChar_not_tab {c : Char} (h : wfKeyChar c = true) : (c == '\t') = false := by
  simp only [beq_eq_false_iff_ne, ne_eq]
  intro he; subst he; simp [wfKeyChar] at h

theorem wfKeyChar_not_nl {c : Char} (h : wfKeyChar c = true) : (c == '\n') = false := by
  simp only [beq_eq_false_iff_ne, ne_eq]
  intro he; subst he; simp [wfKeyChar] at h

theorem wfKeyChar_not_gt {c : Char} (h : wfKeyChar c = true) : (c == '>') = false := by
  simp only [beq_eq_false_iff_ne, ne_eq]
  intro he; subst he; simp [wfKeyChar] at h

theorem wfKeyChar_not_ws {c : Char} (h : wfKeyChar c = true) : isWS c = false := by
  simp only [isWS, Bool.or_eq_false_iff, beq_eq_false_iff_ne, ne_eq]
  refine ⟨⟨⟨?_, ?_⟩, ?_⟩, ?_⟩ <;> intro he <;> subst he <;> simp [wfKeyChar] at h

theorem wfValChar_not_gt {c : Char} (h : wfValChar c = true) : (c == '>') = false := by
  simp only [wfValChar, Bool.not_eq_true', Bool.or_eq_false_iff] at h
  exact h.2

theorem wfValChar_not_quote {c : Char} (h : wfValChar c = true) : (c == '"') = false := by
  simp only [wfValChar, Bool.not_eq_true', Bool.or_eq_false_iff] at h
  exact h.1.1

theorem isWS_not_lt {c : Char} (h : isWS c = true) : (c == '<') = false := by
  simp only [isWS, Bool.or_eq_true, beq_iff_eq] at h
  simp only [beq_eq_false_iff_ne, ne_eq]
  rcases h with ((h | h) | h) | h <;> subst h <;> decide

theorem lexLt_irrefl : ∀ a : LC, lexLt a a = false
  | [] => rfl
  | c :: rest => by simp [lexLt, lexLt_irrefl rest]

theorem lexLt_asymm : ∀ a b : LC, lexLt a b = true → lexLt b a = false
  | [], [] => by simp [lexLt]
  | [], _ :: _ => by simp [lexLt]
  | _ :: _, [] => by simp [lexLt]
  | a :: as, b :: bs => by
    simp only [lexLt]
    by_cases h1 : a < b
    · have h2 : ¬(b < a) := by
        intro h3
        exact absurd (lt_trans h1 h3) (lt_irrefl a)
      simp [h1, h2]
    · by_cases h2 : b < a
      · simp [h1, h2]
      · simp only [h1, h2, if_false]
        exact lexLt_asymm as bs

theorem lexLt_ne {a b : LC} (h : lexLt a b = true) : a ≠ b := by
  intro he; subst he
  rw [lexLt_irrefl] at h
  cases h

theorem mapInsert_gt_all {k : LC} {v : LC} :
    ∀ acc : List (LC × LC), (∀ kv ∈ acc, lexLt kv.1 k = true) →
      mapInsert acc k v = acc ++ [(k, v)]
  | [], _ => rfl
  | (k', v') :: rest, h => by
    have hk' : lexLt k' k = true := h (k', v') (by simp)
    simp only [mapInsert, lexLt_asymm k' k hk', Bool.false_eq_true, if_false]
    rw [if_neg (Ne.symm (lexLt_ne hk'))]
    rw [mapInsert_gt_all rest (fun kv hm => h kv (by simp [hm]))]
    simp

theorem insertSeq_sorted :
    ∀ (m acc : List (LC × LC)), wfAttrs m = true →
      (∀ a ∈ acc, ∀ b ∈ m, lexLt a.1 b.1 = true) →
      m.foldl (fun a kv => mapInsert a kv.1 kv.2) acc = acc ++ m
  | [], acc, _, _ => by simp
  | (k, v) :: rest, acc, hm, hacc => by
    simp only [wfAttrs, Bool.and_eq_true, List.all_eq_true] at hm
    simp only [List.foldl_cons]
    rw [mapInsert_gt_all acc (fun kv hkv => hacc kv hkv (k, v) (by simp))]
    rw [insertSeq_sorted rest (acc ++ [(k, v)]) hm.2 ?later]
    · simp
    case later =>
      intro a ha b hb
      rcases List.mem_append.mp ha with h1 | h1
      · exact hacc a h1 b (by simp [hb])
      · simp only [List.mem_singleton] at h1
        subst h1
        exact hm.1.2 b hb

theorem mapErase_of_forall {m : List (LC × LC)} {k : LC}
    (h : ∀ kv ∈ m, kv.1 ≠ k) : mapErase m k = m := by
  induction m with
  | nil => rfl
  | cons kv rest ih =>
    simp only [mapErase, List.filter_cons]
    rw [if_pos (by simp [h kv (by simp)])]
    rw [show List.filter (fun kv => decide (kv.1 ≠ k)) rest = mapErase rest k from rfl]
    rw [ih (fun kv2 hm => h kv2 (by simp [hm]))]

theorem mapErase_mapInsert_same : ∀ (m : List (LC × LC)) (k v : LC),
    mapErase (mapInsert m k v) k = mapErase m k
  | [], k, v => by simp [mapInsert, mapErase]
  | (k', v') :: rest, k, v => by
    simp only [mapInsert]
    by_cases h1 : lexLt k k' = true
    · simp only [h1, if_true]
      simp [mapErase, List.filter_cons]
    · simp only [h1, Bool.false_eq_true, if_false]
      by_cases h2 : k = k'
      · subst h2
        simp [mapErase, List.filter_cons]
      · simp only [h2, if_false]
        have hne : (decide (k' ≠ k) : Bool) = true := by
          simp only [ne_eq, decide_not, Bool.not_eq_true', decide_eq_false_iff_not]
          intro h3
          exact h2 h3.symm
        simp only [mapErase, List.filter_cons, hne, if_true]
        exact congrArg (List.cons _) (mapErase_mapInsert_same rest k v)

end HB


namespace HB

theorem mem_of_head?_some {l : LC} {c : Char} (h : l.head? = some c) : c ∈ l := by
  cases l with
  | nil => cases h
  | cons d rest =>
    simp only [List.head?_cons, Option.some_inj] at h
    subst h
    simp

theorem mem_of_getLast?_some {l : LC} {c : Char} (h : l.getLast? = some c) : c ∈ l := by
  have hx : c ∈ l.getLast? := by rw [Option.mem_def]; exact h
  obtain ⟨hne, heq⟩ := List.mem_getLast?_eq_getLast hx
  rw [heq]
  exact List.getLast_mem hne

theorem dropWhile_eq_self_of_head (l : LC)
    (h : ∀ c, l.head? = some c → isWS c = false) : l.dropWhile isWS = l := by
  cases l with
  | nil => rfl
  | cons c rest => simp [List.dropWhile_cons, h c rfl]

theorem trim_eq_self {s : LC} (h1 : ∀ c, s.head? = some c → isWS c = false)
    (h2 : ∀ c, s.getLast? = some c → isWS c = false) : trim s = s := by
  unfold trim
  rw [dropWhile_eq_self_of_head s h1]
  rw [dropWhile_eq_self_of_head s.reverse ?hr]
  · exact List.reverse_reverse s
  case hr =>
    intro c hc
    rw [List.head?_reverse] at hc
    exact h2 c hc

theorem trim_of_all {s : LC} (h : ∀ c ∈ s, isWS c = false) : trim s = s := by
  refine trim_eq_self ?_ ?_
  · intro c hc
    exact h c (mem_of_head?_some hc)
  · intro c hc
    exact h c (mem_of_getLast?_some hc)

theorem trim_snoc_ws {k : LC} {c : Char} (hc : isWS c = true)
    (h : ∀ x ∈ k, isWS x = false) : trim (k ++ [c]) = k := by
  cases k with
  | nil =>
    simp only [List.nil_append]
    unfold trim
    simp [List.dropWhile, hc]
  | cons d rest =>
    unfold trim
    have h1 : (d :: rest ++ [c]).dropWhile isWS = d :: rest ++ [c] := by
      apply dropWhile_eq_self_of_head
      intro x hx
      simp only [List.cons_append, List.head?_cons, Option.some_inj] at hx
      exact hx ▸ h d (by simp)
    rw [h1]
    have h2 : (d :: rest ++ [c]).reverse = c :: (d :: rest).reverse := by
      rw [show d :: rest ++ [c] = (d :: rest) ++ [c] from rfl, List.reverse_append]
      simp
    rw [h2]
    rw [List.dropWhile_cons]
    simp only [hc, if_true]
    rw [dropWhile_eq_self_of_head _ ?h3]
    · exact List.reverse_reverse _
    case h3 =>
      intro x hx
      rw [List.head?_reverse] at hx
      exact h x (mem_of_getLast?_some hx)

theorem textElems_ws {pre : LC} (h : ∀ c ∈ pre, isWS c = true) : textElems pre = [] := by
  unfold textElems
  rw [if_neg]
  simp only [List.any_eq_true, Bool.not_eq_true', not_exists, not_and]
  intro c hc
  rw [h c hc]
  simp

theorem attrsToStr_eq_renderAttrs : ∀ m : List (LC × LC), attrsToStr m = renderAttrs m := by
  have gen : ∀ (m : List (LC × LC)) (acc : LC),
      m.foldl (fun acc kv =>
        if kv.2 = [] then acc ++ ' ' :: kv.1
        else acc ++ ' ' :: kv.1 ++ '=' :: '"' :: kv.2 ++ ['"']) acc = acc ++ renderAttrs m := by
    intro m
    induction m with
    | nil => simp [renderAttrs]
    | cons kv rest ih =>
      intro acc
      obtain ⟨k, v⟩ := kv
      simp only [List.foldl_cons]
      by_cases hv : v = []
      · subst hv
        rw [if_pos rfl, ih]
        simp [renderAttrs, unitBody]
      · rw [if_neg hv, ih]
        simp [renderAttrs, unitBody, hv]
  intro m
  exact gen m []

theorem wfAttrs_cons {k v : LC} {rest : List (LC × LC)}
    (h : wfAttrs ((k, v) :: rest) = true) :
    wfKey k = true ∧ wfVal v = true ∧ (∀ kw ∈ rest, lexLt k kw.1 = true) ∧
      wfAttrs rest = true := by
  simp only [wfAttrs, Bool.and_eq_true, List.all_eq_true] at h
  exact ⟨h.1.1.1, h.1.1.2, h.1.2, h.2⟩

theorem wfKey_ne_nil {k : LC} (h : wfKey k = true) : k ≠ [] := by
  simp only [wfKey, Bool.and_eq_true, List.all_eq_true] at h
  intro he
  rw [he] at h
  simp at h

theorem wfKey_chars {k : LC} (h : wfKey k = true) : ∀ c ∈ k, wfKeyChar c = true := by
  simp only [wfKey, Bool.and_eq_true, List.all_eq_true] at h
  exact h.2

theorem wfVal_chars {v : LC} (h : wfVal v = true) : ∀ c ∈ v, wfValChar c = true := by
  simp only [wfVal, List.all_eq_true] at h
  exact h

theorem unitBody_ne_nil {k v : LC} (hk : wfKey k = true) : unitBody (k, v) ≠ [] := by
  simp only [unitBody]
  intro he
  rcases List.append_eq_nil.mp he with ⟨h1, _⟩
  exact wfKey_ne_nil hk h1

theorem unitBody_head {k v : LC} (hk : wfKey k = true) :
    ∃ c, (unitBody (k, v)).head? = some c ∧ wfKeyChar c = true := by
  cases hke : k with
  | nil => exact absurd hke (wfKey_ne_nil hk)
  | cons d rest =>
    refine ⟨d, ?_, wfKey_chars hk d (by simp [hke])⟩
    simp [unitBody, hke]

theorem unitBody_getLast {k v : LC} (hk : wfKey k = true) (_hv : wfVal v = true) :
    ∃ c, (unitBody (k, v)).getLast? = some c ∧ isWS c = false := by
  by_cases hve : v = []
  · obtain ⟨c, hke⟩ : ∃ c, k.getLast? = some c := by
      cases hkl : k.getLast? with
      | none => exact absurd (List.getLast?_eq_none_iff.mp hkl) (wfKey_ne_nil hk)
      | some c => exact ⟨c, rfl⟩
    refine ⟨c, ?_, wfKeyChar_not_ws (wfKey_chars hk c (mem_of_getLast?_some hke))⟩
    rw [show unitBody (k, v) = k from by simp [unitBody, hve]]
    exact hke
  · refine ⟨'"', ?_, by decide⟩
    simp only [unitBody, if_neg hve]
    rw [show k ++ ('=' :: '"' :: v ++ ['"']) = (k ++ '=' :: '"' :: v) ++ ['"'] by simp]
    exact List.getLast?_concat _

theorem renderAttrs_ne_nil {kv : LC × LC} {rest : List (LC × LC)} :
    renderAttrs (kv :: rest) ≠ [] := by
  simp [renderAttrs]

theorem renderAttrs_chars {m : List (LC × LC)} (hm : wfAttrs m = true) :
    ∀ c ∈ renderAttrs m,
      c = ' ' ∨ c = '=' ∨ c = '"' ∨ wfKeyChar c = true ∨ wfValChar c = true := by
  induction m with
  | nil => simp [renderAttrs]
  | cons kv rest ih =>
    obtain ⟨k, v⟩ := kv
    obtain ⟨hk, hv, _, hrest⟩ := wfAttrs_cons hm
    intro c hc
    simp only [renderAttrs, List.cons_append, List.mem_cons, List.mem_append] at hc
    rcases hc with h | h | h
    · exact Or.inl h
    · simp only [unitBody, List.mem_append] at h
      rcases h with h | h
      · exact Or.inr (Or.inr (Or.inr (Or.inl (wfKey_chars hk c h))))
      · by_cases hve : v = []
        · rw [if_pos hve] at h
          cases h
        · rw [if_neg hve] at h
          have h3 : c = '=' ∨ c = '"' ∨ c ∈ v := by
            simp only [List.mem_cons, List.mem_append, List.mem_singleton] at h
            tauto
          rcases h3 with h | h | h
          · exact Or.inr (Or.inl h)
          · exact Or.inr (Or.inr (Or.inl h))
          · exact Or.inr (Or.inr (Or.inr (Or.inr (wfVal_chars hv c h))))
    · exact ih hrest c h

theorem renderAttrs_not_gt {m : List (LC × LC)} (hm : wfAttrs m = true) :
    ∀ c ∈ renderAttrs m, (c == '>') = false := by
  intro c hc
  rcases renderAttrs_chars hm c hc with h | h | h | h | h
  · subst h; decide
  · subst h; decide
  · subst h; decide
  · exact wfKeyChar_not_gt h
  · exact wfValChar_not_gt h

theorem renderAttrs_getLast {m : List (LC × LC)} (hm : wfAttrs m = true) (hne : m ≠ []) :
    ∃ c, (renderAttrs m).getLast? = some c ∧ isWS c = false := by
  induction m with
  | nil => exact absurd rfl hne
  | cons kv rest ih =>
    obtain ⟨k, v⟩ := kv
    obtain ⟨hk, hv, _, hrest⟩ := wfAttrs_cons hm
    cases rest with
    | nil =>
      obtain ⟨c, hc1, hc2⟩ := unitBody_getLast hk hv
      refine ⟨c, ?_, hc2⟩
      show (' ' :: unitBody (k, v) ++ renderAttrs []).getLast? = some c
      rw [show renderAttrs [] = [] from rfl, List.append_nil,
        show ' ' :: unitBody (k, v) = [' '] ++ unitBody (k, v) from rfl,
        List.getLast?_append_of_ne_nil _ (unitBody_ne_nil hk)]
      exact hc1
    | cons kv2 rest2 =>
      obtain ⟨c, hc1, hc2⟩ := ih hrest (by simp)
      refine ⟨c, ?_, hc2⟩
      show (' ' :: unitBody (k, v) ++ renderAttrs (kv2 :: rest2)).getLast? = some c
      rw [List.getLast?_append_of_ne_nil _ renderAttrs_ne_nil]
      exact hc1

end HB

namespace HB

theorem paStep_plain {cur key : LC} {acc : List (LC × LC)} {c : Char}
    (h1 : (c == '=') = false) (h2 : (c == '"') = false) (h3 : (c == ' ') = false)
    (h4 : (c == '\t') = false) (h5 : (c == '\n') = false) :
    paStep ⟨cur, false, key, acc⟩ c = ⟨cur ++ [c], false, key, acc⟩ := by
  simp [paStep, h1, h2, h3, h4, h5]

theorem paStep_value {cur key : LC} {acc : List (LC × LC)} {c : Char}
    (h2 : (c == '"') = false) :
    paStep ⟨cur, true, key, acc⟩ c = ⟨cur ++ [c], true, key, acc⟩ := by
  simp [paStep, h2]

theorem paStep_eq_sign {cur key : LC} {acc : List (LC × LC)} :
    paStep ⟨cur, false, key, acc⟩ '=' = ⟨[], false, trim cur, acc⟩ := by
  simp [paStep]

theorem paStep_quote_open {cur key : LC} {acc : List (LC × LC)} :
    paStep ⟨cur, false, key, acc⟩ '"' = ⟨cur ++ ['"'], true, key, acc⟩ := by
  simp [paStep]

theorem paStep_quote_close {v key : LC} {acc : List (LC × LC)} :
    paStep ⟨'"' :: v, true, key, acc⟩ '"' = ⟨[], false, [], mapInsert acc key v⟩ := by
  simp [paStep, List.dropLast_concat]

theorem paStep_space {cur key : LC} {acc : List (LC × LC)} :
    paStep ⟨cur, false, key, acc⟩ ' ' =
      ⟨[], false, [],
        if trim (cur ++ [' ']) ≠ [] then mapInsert acc (trim (cur ++ [' '])) [] else acc⟩ := by
  simp [paStep]

theorem pa_run_keychars {k : LC} (hk : ∀ c ∈ k, wfKeyChar c = true) :
    ∀ (cur key : LC) (acc : List (LC × LC)) (rest : LC),
      List.foldl paStep ⟨cur, false, key, acc⟩ (k ++ rest) =
      List.foldl paStep ⟨cur ++ k, false, key, acc⟩ rest := by
  induction k with
  | nil => intro cur key acc rest; simp
  | cons c k2 ih =>
    intro cur key acc rest
    have hc := hk c (by simp)
    simp only [List.cons_append, List.foldl_cons]
    rw [paStep_plain (wfKeyChar_not_eq_sign hc) (wfKeyChar_not_quote hc)
      (wfKeyChar_not_space hc) (wfKeyChar_not_tab hc) (wfKeyChar_not_nl hc)]
    rw [ih (fun x hx => hk x (by simp [hx]))]
    simp

theorem pa_run_valchars {v : LC} (hv : ∀ c ∈ v, wfValChar c = true) :
    ∀ (cur key : LC) (acc : List (LC × LC)) (rest : LC),
      List.foldl paStep ⟨cur, true, key, acc⟩ (v ++ rest) =
      List.foldl paStep ⟨cur ++ v, true, key, acc⟩ rest := by
  induction v with
  | nil => intro cur key acc rest; simp
  | cons c v2 ih =>
    intro cur key acc rest
    have hc := hv c (by simp)
    simp only [List.cons_append, List.foldl_cons]
    rw [paStep_value (wfValChar_not_quote hc)]
    rw [ih (fun x hx => hv x (by simp [hx]))]
    simp

theorem pa_unit {k v : LC} (hk : wfKey k = true) (hv : wfVal v = true) :
    ∀ (key : LC) (acc : List (LC × LC)) (rest : LC),
      List.foldl paStep ⟨[], false, key, acc⟩ (unitBody (k, v) ++ rest) =
      if v = [] then List.foldl paStep ⟨k, false, key, acc⟩ rest
      else List.foldl paStep ⟨[], false, [], mapInsert acc k v⟩ rest := by
  intro key acc rest
  by_cases hve : v = []
  · rw [if_pos hve]
    rw [show unitBody (k, v) = k from by simp [unitBody, hve]]
    rw [pa_run_keychars (wfKey_chars hk)]
    simp
  · rw [if_neg hve]
    rw [show unitBody (k, v) ++ rest = k ++ ('=' :: '"' :: (v ++ ('"' :: rest))) from by
      simp [unitBody, hve]]
    rw [pa_run_keychars (wfKey_chars hk)]
    simp only [List.nil_append, List.foldl_cons]
    rw [paStep_eq_sign]
    rw [trim_of_all (fun c hc => wfKeyChar_not_ws (wfKey_chars hk c hc))]
    rw [paStep_quote_open]
    simp only [List.nil_append]
    rw [pa_run_valchars (wfVal_chars hv)]
    simp only [List.singleton_append, List.foldl_cons]
    rw [paStep_quote_close]

theorem pa_units {m : List (LC × LC)} (hm : wfAttrs m = true) :
    ∀ (p : LC) (acc : List (LC × LC)) (rest2 : LC),
      (∀ c ∈ p, wfKeyChar c = true) →
      List.foldl paStep ⟨p, false, [], acc⟩ (renderAttrs m ++ rest2) =
      List.foldl paStep ⟨(paRun p acc m).1, false, [], (paRun p acc m).2⟩ rest2 := by
  induction m with
  | nil => intro p acc rest2 _; simp [renderAttrs, paRun]
  | cons kv rest ih =>
    intro p acc rest2 hp
    obtain ⟨k, v⟩ := kv
    obtain ⟨hk, hv, _, hrest⟩ := wfAttrs_cons hm
    rw [show renderAttrs ((k, v) :: rest) ++ rest2 =
      ' ' :: (unitBody (k, v) ++ (renderAttrs rest ++ rest2)) from by simp [renderAttrs]]
    rw [List.foldl_cons, paStep_space]
    rw [trim_snoc_ws (by decide) (fun x hx => wfKeyChar_not_ws (hp x hx))]
    have hacc1 : (if p ≠ [] then mapInsert acc p [] else acc) =
        (if p = [] then acc else mapInsert acc p []) := by
      by_cases hpe : p = [] <;> simp [hpe]
    rw [hacc1]
    rw [pa_unit hk hv]
    by_cases hve : v = []
    · rw [if_pos hve]
      rw [ih hrest k _ rest2 (wfKey_chars hk)]
      simp [paRun, hve]
    · rw [if_neg hve]
      rw [ih hrest [] _ rest2 (by simp)]
      simp [paRun, hve]

theorem paRun_pend {m : List (LC × LC)} (hm : wfAttrs m = true) :
    ∀ (p : LC) (acc : List (LC × LC)), (p = [] ∨ wfKey p = true) →
      ((paRun p acc m).1 = [] ∨ wfKey (paRun p acc m).1 = true) := by
  induction m with
  | nil => intro p acc hp; exact hp
  | cons kv rest ih =>
    intro p acc hp
    obtain ⟨k, v⟩ := kv
    obtain ⟨hk, _, _, hrest⟩ := wfAttrs_cons hm
    show (paRun p acc ((k, v) :: rest)).1 = [] ∨ _
    rw [paRun]
    by_cases hve : v = []
    · rw [if_pos hve]
      exact ih hrest k _ (Or.inr hk)
    · rw [if_neg hve]
      exact ih hrest [] _ (Or.inl rfl)

theorem paRun_flush {m : List (LC × LC)} (hm : wfAttrs m = true) :
    ∀ (p : LC) (acc : List (LC × LC)),
      flushP (paRun p acc m).1 (paRun p acc m).2 =
      m.foldl (fun a kv => mapInsert a kv.1 kv.2) (flushP p acc) := by
  induction m with
  | nil => intro p acc; rfl
  | cons kv rest ih =>
    intro p acc
    obtain ⟨k, v⟩ := kv
    obtain ⟨hk, _, _, hrest⟩ := wfAttrs_cons hm
    rw [paRun]
    by_cases hve : v = []
    · rw [if_pos hve]
      rw [ih hrest k _]
      simp only [List.foldl_cons, hve]
      congr 1
      simp [flushP, wfKey_ne_nil hk]
    · rw [if_neg hve]
      rw [ih hrest [] _]
      simp only [List.foldl_cons]
      congr 1

theorem mapInsert_mem : ∀ (m : List (LC × LC)) (k v : LC),
    ∀ kv ∈ mapInsert m k v, kv ∈ m ∨ kv = (k, v)
  | [], k, v, kv, h => by
    simp only [mapInsert, List.mem_singleton] at h
    exact Or.inr h
  | (k', v') :: rest, k, v, kv, h => by
    rw [mapInsert] at h
    by_cases h1 : lexLt k k' = true
    · rw [if_pos h1] at h
      rcases List.mem_cons.mp h with h2 | h2
      · exact Or.inr h2
      · exact Or.inl h2
    · rw [if_neg h1] at h
      by_cases h2 : k = k'
      · rw [if_pos h2] at h
        rcases List.mem_cons.mp h with h3 | h3
        · exact Or.inr h3
        · exact Or.inl (List.mem_cons_of_mem _ h3)
      · rw [if_neg h2] at h
        rcases List.mem_cons.mp h with h3 | h3
        · exact Or.inl (h3 ▸ List.mem_cons_self _ _)
        · rcases mapInsert_mem rest k v kv h3 with h4 | h4
          · exact Or.inl (List.mem_cons_of_mem _ h4)
          · exact Or.inr h4

end HB

namespace HB

theorem wfKey_ne_special {k : LC} (h : wfKey k = true) :
    k ≠ [] ∧ k ≠ ['/'] ∧ k ≠ [' '] := by
  refine ⟨wfKey_ne_nil h, ?_, ?_⟩ <;> intro he <;> rw [he] at h <;> exact absurd h (by decide)

theorem wfAttrs_mem_key {m : List (LC × LC)} (hm : wfAttrs m = true) :
    ∀ kv ∈ m, wfKey kv.1 = true := by
  induction m with
  | nil => simp
  | cons kv2 rest ih =>
    obtain ⟨k, v⟩ := kv2
    obtain ⟨hk, _, _, hrest⟩ := wfAttrs_cons hm
    intro kv hkv
    rcases List.mem_cons.mp hkv with h | h
    · rw [h]; exact hk
    · exact ih hrest kv h

theorem trim_slash : trim ['/'] = ['/'] := by decide

theorem parse_attributes_state {I : LC} (hne : I ≠ []) (htrim : trim I = I)
    {P1 : LC} {P2 : List (LC × LC)}
    (hfold : I.foldl paStep ⟨[], false, [], []⟩ = ⟨P1, false, [], P2⟩)
    (htrimP : trim P1 = P1) :
    parse_attributes I = mapErase (mapErase (mapErase (flushP P1 P2) []) ['/']) [' '] := by
  unfold parse_attributes
  rw [if_neg hne, htrim, hfold]
  by_cases hp : P1 = []
  · simp [hp, flushP]
  · simp [hp, htrimP, flushP]

theorem erase3_eq_self {m : List (LC × LC)} (hm : wfAttrs m = true) :
    mapErase (mapErase (mapErase m []) ['/']) [' '] = m := by
  have h1 : ∀ kv ∈ m, kv.1 ≠ ([] : LC) :=
    fun kv hkv => (wfKey_ne_special (wfAttrs_mem_key hm kv hkv)).1
  have h2 : ∀ kv ∈ m, kv.1 ≠ ['/'] :=
    fun kv hkv => (wfKey_ne_special (wfAttrs_mem_key hm kv hkv)).2.1
  have h3 : ∀ kv ∈ m, kv.1 ≠ [' '] :=
    fun kv hkv => (wfKey_ne_special (wfAttrs_mem_key hm kv hkv)).2.2
  rw [mapErase_of_forall h1, mapErase_of_forall h2, mapErase_of_forall h3]

theorem flushP_paRun_eq {m : List (LC × LC)} (hm : wfAttrs m = true) :
    flushP (paRun [] [] m).1 (paRun [] [] m).2 = m := by
  rw [paRun_flush hm]
  rw [show flushP ([] : LC) ([] : List (LC × LC)) = [] from rfl]
  rw [insertSeq_sorted m [] hm (by simp)]
  simp

theorem attrText_trim {k v : LC} {rest : List (LC × LC)}
    (hm : wfAttrs ((k, v) :: rest) = true) :
    trim (unitBody (k, v) ++ renderAttrs rest) = unitBody (k, v) ++ renderAttrs rest := by
  obtain ⟨hk, hv, _, hrest⟩ := wfAttrs_cons hm
  obtain ⟨c, hc1, hc2⟩ := unitBody_head (v := v) hk
  refine trim_eq_self ?_ ?_
  · intro d hd
    cases hub : unitBody (k, v) with
    | nil => exact absurd hub (unitBody_ne_nil hk)
    | cons e es =>
      rw [hub] at hd
      simp only [List.cons_append, List.head?_cons, Option.some_inj] at hd
      rw [hub, List.head?_cons, Option.some_inj] at hc1
      rw [show d = c from by rw [← hd, hc1]]
      exact wfKeyChar_not_ws hc2
  · intro d hd
    cases rest with
    | nil =>
      rw [show renderAttrs [] = [] from rfl, List.append_nil] at hd
      obtain ⟨e, he1, he2⟩ := unitBody_getLast hk hv
      rw [hd] at he1
      rw [Option.some_inj.mp he1]
      exact he2
    | cons kv2 rest2 =>
      rw [List.getLast?_append_of_ne_nil _ renderAttrs_ne_nil] at hd
      obtain ⟨e, he1, he2⟩ := renderAttrs_getLast hrest (by simp)
      rw [hd] at he1
      rw [Option.some_inj.mp he1]
      exact he2

theorem attrText_fold {k v : LC} {rest : List (LC × LC)}
    (hm : wfAttrs ((k, v) :: rest) = true) :
    (unitBody (k, v) ++ renderAttrs rest).foldl paStep ⟨[], false, [], []⟩ =
      ⟨(paRun [] [] ((k, v) :: rest)).1, false, [], (paRun [] [] ((k, v) :: rest)).2⟩ := by
  obtain ⟨hk, hv, _, hrest⟩ := wfAttrs_cons hm
  rw [show (unitBody (k, v) ++ renderAttrs rest).foldl paStep ⟨[], false, [], []⟩ =
    List.foldl paStep ⟨[], false, [], []⟩ (unitBody (k, v) ++ (renderAttrs rest ++ [])) from by
      rw [List.append_nil]]
  rw [pa_unit hk hv]
  by_cases hve : v = []
  · rw [if_pos hve, pa_units hrest k [] [] (wfKey_chars hk), List.foldl_nil]
    simp [paRun, hve]
  · rw [if_neg hve, pa_units hrest [] _ [] (by simp), List.foldl_nil]
    simp [paRun, hve]

theorem parse_attributes_render {m : List (LC × LC)} (hm : wfAttrs m = true)
    (hne : m ≠ []) : parse_attributes ((renderAttrs m).drop 1) = m := by
  obtain ⟨k, v, rest, rfl⟩ : ∃ k v rest, m = (k, v) :: rest := by
    cases m with
    | nil => exact absurd rfl hne
    | cons kv rest => exact ⟨kv.1, kv.2, rest, by simp⟩
  obtain ⟨hk, hv, _, hrest⟩ := wfAttrs_cons hm
  rw [show (renderAttrs ((k, v) :: rest)).drop 1 = unitBody (k, v) ++ renderAttrs rest from by
    simp [renderAttrs]]
  rw [parse_attributes_state
    (by simp [unitBody_ne_nil hk])
    (attrText_trim hm)
    (attrText_fold hm)
    ?htp]
  · rw [flushP_paRun_eq hm]
    exact erase3_eq_self hm
  case htp =>
    rcases paRun_pend hm [] [] (Or.inl rfl) with h | h
    · rw [h]; rfl
    · exact trim_of_all (fun c hc => wfKeyChar_not_ws (wfKey_chars h c hc))

end HB

namespace HB

theorem attrText_fold_void {k v : LC} {rest : List (LC × LC)}
    (hm : wfAttrs ((k, v) :: rest) = true) :
    (unitBody (k, v) ++ renderAttrs rest ++ [' ', '/']).foldl paStep ⟨[], false, [], []⟩ =
      ⟨['/'], false, [],
        flushP (paRun [] [] ((k, v) :: rest)).1 (paRun [] [] ((k, v) :: rest)).2⟩ := by
  obtain ⟨hk, hv, _, hrest⟩ := wfAttrs_cons hm
  have tailStep : ∀ (p : LC) (acc : List (LC × LC)), (p = [] ∨ wfKey p = true) →
      List.foldl paStep ⟨p, false, [], acc⟩ [' ', '/'] = ⟨['/'], false, [], flushP p acc⟩ := by
    intro p acc hp
    simp only [List.foldl_cons, List.foldl_nil]
    rw [paStep_space]
    have htr : trim (p ++ [' ']) = p := by
      rcases hp with h | h
      · rw [h]; decide
      · exact trim_snoc_ws (by decide) (fun x hx => wfKeyChar_not_ws (wfKey_chars h x hx))
    rw [htr]
    have hif : (if p ≠ [] then mapInsert acc p [] else acc) = flushP p acc := by
      by_cases hpe : p = [] <;> simp [hpe, flushP]
    rw [hif]
    rw [paStep_plain (by decide) (by decide) (by decide) (by decide) (by decide)]
    simp
  rw [show unitBody (k, v) ++ renderAttrs rest ++ [' ', '/'] =
    unitBody (k, v) ++ (renderAttrs rest ++ [' ', '/']) from by simp]
  rw [pa_unit hk hv]
  by_cases hve : v = []
  · rw [if_pos hve, pa_units hrest k [] [' ', '/'] (wfKey_chars hk)]
    rw [tailStep _ _ (paRun_pend hrest k _ (Or.inr hk))]
    simp [paRun, hve]
  · rw [if_neg hve, pa_units hrest [] _ [' ', '/'] (by simp)]
    rw [tailStep _ _ (paRun_pend hrest [] _ (Or.inl rfl))]
    simp [paRun, hve]

theorem attrText_trim_void {k v : LC} {rest : List (LC × LC)}
    (hm : wfAttrs ((k, v) :: rest) = true) :
    trim (unitBody (k, v) ++ renderAttrs rest ++ [' ', '/']) =
      unitBody (k, v) ++ renderAttrs rest ++ [' ', '/'] := by
  obtain ⟨hk, hv, _, hrest⟩ := wfAttrs_cons hm
  obtain ⟨c, hc1, hc2⟩ := unitBody_head (v := v) hk
  refine trim_eq_self ?_ ?_
  · intro d hd
    cases hub : unitBody (k, v) with
    | nil => exact absurd hub (unitBody_ne_nil hk)
    | cons e es =>
      rw [hub] at hd
      simp only [List.cons_append, List.head?_cons, Option.some_inj] at hd
      rw [hub, List.head?_cons, Option.some_inj] at hc1
      rw [show d = c from by rw [← hd, hc1]]
      exact wfKeyChar_not_ws hc2
  · intro d hd
    rw [show unitBody (k, v) ++ renderAttrs rest ++ [' ', '/'] =
      (unitBody (k, v) ++ renderAttrs rest ++ [' ']) ++ ['/'] from by simp] at hd
    rw [List.getLast?_concat] at hd
    rw [show d = '/' from (Option.some_inj.mp hd).symm]
    decide

theorem parse_attributes_render_void {m : List (LC × LC)} (hm : wfAttrs m = true)
    (hne : m ≠ []) :
    parse_attributes ((renderAttrs m).drop 1 ++ [' ', '/']) = m := by
  obtain ⟨k, v, rest, rfl⟩ : ∃ k v rest, m = (k, v) :: rest := by
    cases m with
    | nil => exact absurd rfl hne
    | cons kv rest => exact ⟨kv.1, kv.2, rest, by simp⟩
  obtain ⟨hk, hv, _, hrest⟩ := wfAttrs_cons hm
  rw [show (renderAttrs ((k, v) :: rest)).drop 1 ++ [' ', '/'] =
    unitBody (k, v) ++ renderAttrs rest ++ [' ', '/'] from by simp [renderAttrs]]
  rw [parse_attributes_state
    (by simp [unitBody_ne_nil hk])
    (attrText_trim_void hm)
    (attrText_fold_void hm)
    trim_slash]
  rw [flushP_paRun_eq hm]
  rw [show flushP ['/'] ((k, v) :: rest) = mapInsert ((k, v) :: rest) ['/'] [] from by
    simp [flushP]]
  have h1 : mapErase (mapInsert ((k, v) :: rest) ['/'] []) [] =
      mapInsert ((k, v) :: rest) ['/'] [] := by
    apply mapErase_of_forall
    intro kv hkv
    rcases mapInsert_mem _ _ _ kv hkv with h | h
    · exact (wfKey_ne_special (wfAttrs_mem_key hm kv h)).1
    · rw [h]; simp
  rw [h1, mapErase_mapInsert_same]
  have h2 : ∀ kv ∈ (k, v) :: rest, kv.1 ≠ (['/'] : LC) :=
    fun kv hkv => (wfKey_ne_special (wfAttrs_mem_key hm kv hkv)).2.1
  have h3 : ∀ kv ∈ (k, v) :: rest, kv.1 ≠ ([' '] : LC) :=
    fun kv hkv => (wfKey_ne_special (wfAttrs_mem_key hm kv hkv)).2.2
  rw [mapErase_of_forall h2, mapErase_of_forall h3]

end HB

namespace HB

theorem breakAt_none {p : Char → Bool} {s : LC} (h : ∀ c ∈ s, p c = false) :
    breakAt p s = (s, []) := by
  unfold breakAt
  rw [List.takeWhile_eq_self_iff.mpr (fun c hc => by simp [h c hc]),
    List.dropWhile_eq_nil_iff.mpr (fun c hc => by simp [h c hc])]

theorem lowerChars_eq_self {t : LC} (h : ∀ c ∈ t, isLowerAlpha c = true) :
    lowerChars t = t := by
  unfold lowerChars
  rw [List.map_congr_left (fun c hc => isLowerAlpha_toLower (h c hc))]
  exact List.map_id t

theorem wfTag_ne_nil {t : LC} (h : wfTag t = true) : t ≠ [] := by
  simp only [wfTag, Bool.and_eq_true, List.all_eq_true] at h
  intro he
  rw [he] at h
  simp at h

theorem wfTag_chars {t : LC} (h : wfTag t = true) : ∀ c ∈ t, isLowerAlpha c = true := by
  simp only [wfTag, Bool.and_eq_true, List.all_eq_true] at h
  exact h.2

theorem wfTag_ne_NO_TAG {t : LC} (h : wfTag t = true) : t ≠ "NO_TAG".data := by
  intro he
  rw [he] at h
  exact absurd h (by decide)

theorem wfForest_cons {e : Elem} {es : List Elem} (h : wfForest (e :: es) = true) :
    wfElem e = true ∧ wfForest es = true := by
  rw [wfForest] at h
  exact Bool.and_eq_true_iff.mp h

theorem wfElem_reg {t x : LC} {a : List (LC × LC)} {ch : List Elem}
    (h : wfElem (Elem.mk .regular t x a ch) = true) :
    wfTag t = true ∧ is_self_closing_tag t = false ∧ x = [] ∧ wfAttrs a = true ∧
      wfForest ch = true := by
  rw [wfElem] at h
  simp only [Bool.and_eq_true, Bool.not_eq_true', List.isEmpty_iff] at h
  exact ⟨h.1.1.1.1, h.1.1.1.2, h.1.1.2, h.1.2, h.2⟩

theorem wfElem_void {t x : LC} {a : List (LC × LC)} {ch : List Elem}
    (h : wfElem (Elem.mk .selfClosing t x a ch) = true) :
    get_self_closing_tags.contains t = true ∧ wfTag t = true ∧ x = [] ∧
      wfAttrs a = true ∧ ch = [] := by
  rw [wfElem] at h
  simp only [Bool.and_eq_true, List.isEmpty_iff] at h
  exact ⟨h.1.1.1.1, h.1.1.1.2, h.1.1.2, h.1.2, h.2⟩

theorem wfElem_not_doctype {t x : LC} {a : List (LC × LC)} {ch : List Elem} :
    wfElem (Elem.mk .doctype t x a ch) = true → False := by
  rw [wfElem]
  simp

theorem toStr_ne_nil {e : Elem} (h : wfElem e = true) : e.toStr ≠ [] := by
  obtain ⟨kind, t, x, a, ch⟩ := e
  cases kind with
  | regular =>
    obtain ⟨hwft, _, _, _, _⟩ := wfElem_reg h
    rw [Elem.toStr, if_neg (wfTag_ne_NO_TAG hwft), if_neg (wfTag_ne_nil hwft)]
    simp
  | selfClosing => rw [Elem.toStr]; simp
  | doctype => exact absurd h wfElem_not_doctype

theorem is_self_closing_of_wf_void {t : LC} (hc : get_self_closing_tags.contains t = true)
    (hwft : wfTag t = true) : is_self_closing_tag t = true := by
  rw [is_self_closing_tag, lowerChars_eq_self (wfTag_chars hwft)]
  exact hc

theorem parse_attributes_slash : parse_attributes ['/'] = [] := by decide

theorem parse_attributes_nil : parse_attributes [] = [] := rfl

theorem textElems_nil : textElems [] = [] := rfl

theorem openBody_not_gt {t : LC} {a : List (LC × LC)} (hwft : wfTag t = true)
    (ha : wfAttrs a = true) : ∀ c ∈ t ++ renderAttrs a, (c == '>') = false := by
  intro c hc
  rcases List.mem_append.mp hc with h | h
  · exact isLowerAlpha_not_gt (wfTag_chars hwft c h)
  · exact renderAttrs_not_gt ha c h

theorem openBodyVoid_not_gt {t : LC} {a : List (LC × LC)} (hwft : wfTag t = true)
    (ha : wfAttrs a = true) : ∀ c ∈ t ++ renderAttrs a ++ [' ', '/'], (c == '>') = false := by
  intro c hc
  rcases List.mem_append.mp hc with h | h
  · rcases List.mem_append.mp h with h2 | h2
    · exact isLowerAlpha_not_gt (wfTag_chars hwft c h2)
    · exact renderAttrs_not_gt ha c h2
  · rcases List.mem_cons.mp h with h2 | h2
    · subst h2; decide
    · simp only [List.mem_singleton] at h2; subst h2; decide

end HB

namespace HB

/-- Parsing the serialization: for every well-formed text-free forest, the
core parser run on leading whitespace plus the serialized forest plus a
trailer (nothing, or a closing tag) returns exactly the forest and stops at
the trailer.  The induction is on the input length; fuel only needs to
exceed the input length. -/
theorem parse_ser : ∀ (n : Nat) (pre : LC) (f : List Elem) (rest : LC) (fuel : Nat),
    (pre ++ toStrForest f ++ rest).length ≤ n →
    (pre ++ toStrForest f ++ rest).length < fuel →
    (∀ c ∈ pre, isWS c = true) →
    wfForest f = true →
    (rest = [] ∨ ∃ xs, rest = '<' :: '/' :: xs ∧ '>' ∈ xs) →
    parse_html_optimized fuel (pre ++ toStrForest f ++ rest) = .ok (f, rest) := by
  intro n
  induction n with
  | zero =>
    intro pre f rest fuel hlen hfuel hpre hwf hrest
    have h0 : pre = [] ∧ toStrForest f = [] ∧ rest = [] := by
      simp only [List.length_append, Nat.le_zero, Nat.add_eq_zero] at hlen
      exact ⟨List.length_eq_zero.mp hlen.1.1, List.length_eq_zero.mp hlen.1.2,
        List.length_eq_zero.mp hlen.2⟩
    obtain ⟨hp, hf, hr⟩ := h0
    have hfnil : f = [] := by
      cases f with
      | nil => rfl
      | cons e es =>
        exfalso
        rw [show toStrForest (e :: es) = e.toStr ++ toStrForest es from rfl] at hf
        exact toStr_ne_nil (wfForest_cons hwf).1 (List.append_eq_nil.mp hf).1
    subst hp hr hfnil
    obtain ⟨fu, rfl⟩ : ∃ fu, fuel = fu + 1 := by
      cases fuel with
      | zero => exact absurd hfuel (by simp)
      | succ fu => exact ⟨fu, rfl⟩
    simp [parse_html_optimized, breakAt, textElems, toStrForest]
  | succ n ih =>
    intro pre f rest fuel hlen hfuel hpre hwf hrest
    obtain ⟨fu, rfl⟩ : ∃ fu, fuel = fu + 1 := by
      cases fuel with
      | zero => exact absurd hfuel (by simp)
      | succ fu => exact ⟨fu, rfl⟩
    cases f with
    | nil =>
      rw [show toStrForest [] = [] from rfl]
      rw [List.append_nil]
      rcases hrest with rfl | ⟨xs, rfl, hgt⟩
      · rw [List.append_nil]
        rw [parse_html_optimized]
        rw [breakAt_none (fun c hc => by
          have := hpre c hc
          simp only [isWS, Bool.or_eq_true, beq_iff_eq] at this
          rcases this with ((h | h) | h) | h <;> subst h <;> decide)]
        show Except.ok (textElems pre, ([] : LC)) = Except.ok (([] : List Elem), ([] : LC))
        rw [textElems_ws hpre]
      · rw [parse_html_optimized]
        rw [breakAt_append_cons _ pre '<' _
          (fun c hc => isWS_not_lt (hpre c hc)) (by decide)]
        rcases hdrop : List.dropWhile (fun c => !(c == '>')) ('/' :: xs) with _ | ⟨g, r2⟩
        · exfalso
          have h2 := List.dropWhile_eq_nil_iff.mp hdrop '>' (by simp [hgt])
          simp at h2
        · have htake : List.takeWhile (fun c => !(c == '>')) ('/' :: xs) =
              '/' :: List.takeWhile (fun c => !(c == '>')) xs := by
            simp [List.takeWhile_cons]
          have hb2 : breakAt (· == '>') ('/' :: xs) =
              ('/' :: List.takeWhile (fun c => !(c == '>')) xs, g :: r2) := by
            unfold breakAt
            rw [htake, hdrop]
          simp only [hb2]
          show Except.ok (textElems pre, '<' :: '/' :: xs) =
            Except.ok (([] : List Elem), '<' :: '/' :: xs)
          rw [textElems_ws hpre]
    | cons e es =>
      obtain ⟨kind, t, x, a, ch⟩ := e
      obtain ⟨hwfe, hwfes⟩ := wfForest_cons hwf
      cases kind with
      | doctype => exact (wfElem_not_doctype hwfe).elim
      | selfClosing =>
        obtain ⟨hcont, hwft, hx, hattrs, hch⟩ := wfElem_void hwfe
        subst hx
        subst hch
        obtain ⟨t0, t', rfl⟩ : ∃ t0 t', t = t0 :: t' := by
          cases t with
          | nil => exact absurd rfl (wfTag_ne_nil hwft)
          | cons t0 t' => exact ⟨t0, t', rfl⟩
        have hslash : ¬(t0 = '/') := isLowerAlpha_ne_slash (wfTag_chars hwft t0 (by simp))
        have htr1 : trim (t0 :: t') = t0 :: t' :=
          trim_of_all (fun c hc => isLowerAlpha_not_ws (wfTag_chars hwft c hc))
        have hvoid : is_self_closing_tag (t0 :: t') = true :=
          is_self_closing_of_wf_void hcont hwft
        have hlenstep : ∀ s2 : LC, pre ++ toStrForest (Elem.mk .selfClosing (t0 :: t') [] a [] :: es) ++ rest = s2 →
            (toStrForest es ++ rest).length ≤ n ∧ (toStrForest es ++ rest).length < fu := by
          intro s2 _
          have hts : (Elem.mk .selfClosing (t0 :: t') [] a []).toStr =
              '<' :: (t0 :: t') ++ attrsToStr a ++ " />".data := rfl
          rw [show toStrForest (Elem.mk .selfClosing (t0 :: t') [] a [] :: es) =
            (Elem.mk .selfClosing (t0 :: t') [] a []).toStr ++ toStrForest es from rfl, hts]
            at hlen hfuel
          simp only [List.length_append, List.length_cons, List.cons_append] at hlen hfuel ⊢
          omega
        obtain ⟨hl1, hl2⟩ := hlenstep _ rfl
        have hrec0 := ih [] es rest fu (by simpa using hl1) (by simpa using hl2)
          (by simp) hwfes hrest
        rw [List.nil_append] at hrec0
        cases a with
        | nil =>
          have hshape : pre ++ toStrForest (Elem.mk .selfClosing (t0 :: t') [] [] [] :: es) ++ rest =
              pre ++ '<' :: (t0 :: (t' ++ (' ' :: '/' :: '>' :: (toStrForest es ++ rest)))) := by
            rw [show toStrForest (Elem.mk .selfClosing (t0 :: t') [] [] [] :: es) =
              (Elem.mk .selfClosing (t0 :: t') [] [] []).toStr ++ toStrForest es from rfl]
            rw [show (Elem.mk .selfClosing (t0 :: t') [] [] []).toStr =
              '<' :: (t0 :: t') ++ attrsToStr [] ++ " />".data from rfl]
            simp [attrsToStr_eq_renderAttrs, renderAttrs]
          rw [hshape]
          have hb2 : breakAt (· == '>') (t0 :: (t' ++ (' ' :: '/' :: '>' :: (toStrForest es ++ rest)))) =
              (t0 :: (t' ++ [' ', '/']), '>' :: (toStrForest es ++ rest)) := by
            rw [show t0 :: (t' ++ (' ' :: '/' :: '>' :: (toStrForest es ++ rest))) =
              (t0 :: (t' ++ [' ', '/'])) ++ '>' :: (toStrForest es ++ rest) from by simp]
            refine breakAt_append_cons _ _ '>' _ ?_ (by decide)
            intro c hc
            refine openBodyVoid_not_gt hwft (a := []) (by decide) c ?_
            simpa [renderAttrs] using hc
          have hext : extract_tag_and_attributes (t0 :: (t' ++ [' ', '/'])) =
              (t0 :: t', ['/']) := by
            unfold extract_tag_and_attributes
            rw [show t0 :: (t' ++ [' ', '/']) = (t0 :: t') ++ ' ' :: ['/'] from by simp]
            rw [breakAt_append_cons (· == ' ') (t0 :: t') ' ' ['/']
              (fun c hc => isLowerAlpha_not_space (wfTag_chars hwft c hc)) (by decide)]
          rw [parse_html_optimized]
          rw [breakAt_append_cons _ pre '<' _
            (fun c hc => isWS_not_lt (hpre c hc)) (by decide)]
          simp only [hb2, hext, htr1, trim_slash, parse_attributes_slash, hslash,
            if_false, hvoid, if_true, hrec0, textElems_ws hpre, List.nil_append]
        | cons kv arest =>
          obtain ⟨k1, v1⟩ := kv
          have hshape : pre ++
              toStrForest (Elem.mk .selfClosing (t0 :: t') [] ((k1, v1) :: arest) [] :: es) ++ rest =
              pre ++ '<' :: (t0 :: (t' ++ (' ' :: (unitBody (k1, v1) ++ (renderAttrs arest ++
                (' ' :: '/' :: '>' :: (toStrForest es ++ rest))))))) := by
            rw [show toStrForest (Elem.mk .selfClosing (t0 :: t') [] ((k1, v1) :: arest) [] :: es) =
              (Elem.mk .selfClosing (t0 :: t') [] ((k1, v1) :: arest) []).toStr ++ toStrForest es
              from rfl]
            rw [show (Elem.mk .selfClosing (t0 :: t') [] ((k1, v1) :: arest) []).toStr =
              '<' :: (t0 :: t') ++ attrsToStr ((k1, v1) :: arest) ++ " />".data from rfl]
            simp [attrsToStr_eq_renderAttrs, renderAttrs]
          rw [hshape]
          have hb2 : breakAt (· == '>')
              (t0 :: (t' ++ (' ' :: (unitBody (k1, v1) ++ (renderAttrs arest ++
                (' ' :: '/' :: '>' :: (toStrForest es ++ rest))))))) =
              (t0 :: (t' ++ (' ' :: (unitBody (k1, v1) ++ (renderAttrs arest ++ [' ', '/'])))),
                '>' :: (toStrForest es ++ rest)) := by
            rw [show t0 :: (t' ++ (' ' :: (unitBody (k1, v1) ++ (renderAttrs arest ++
                (' ' :: '/' :: '>' :: (toStrForest es ++ rest)))))) =
              (t0 :: (t' ++ (' ' :: (unitBody (k1, v1) ++ (renderAttrs arest ++ [' ', '/']))))) ++
                '>' :: (toStrForest es ++ rest) from by simp]
            refine breakAt_append_cons _ _ '>' _ ?_ (by decide)
            intro c hc
            refine openBodyVoid_not_gt hwft (a := (k1, v1) :: arest) hattrs c ?_
            simpa [renderAttrs] using hc
          have hext : extract_tag_and_attributes
              (t0 :: (t' ++ (' ' :: (unitBody (k1, v1) ++ (renderAttrs arest ++ [' ', '/']))))) =
              (t0 :: t', unitBody (k1, v1) ++ (renderAttrs arest ++ [' ', '/'])) := by
            unfold extract_tag_and_attributes
            rw [show t0 :: (t' ++ (' ' :: (unitBody (k1, v1) ++ (renderAttrs arest ++ [' ', '/'])))) =
              (t0 :: t') ++ ' ' :: (unitBody (k1, v1) ++ (renderAttrs arest ++ [' ', '/'])) from by
                simp]
            rw [breakAt_append_cons (· == ' ') (t0 :: t') ' ' _
              (fun c hc => isLowerAlpha_not_space (wfTag_chars hwft c hc)) (by decide)]
          have htrz : trim (unitBody (k1, v1) ++ (renderAttrs arest ++ [' ', '/'])) =
              unitBody (k1, v1) ++ (renderAttrs arest ++ [' ', '/']) := by
            have := attrText_trim_void hattrs
            rwa [show unitBody (k1, v1) ++ renderAttrs arest ++ [' ', '/'] =
              unitBody (k1, v1) ++ (renderAttrs arest ++ [' ', '/']) from by simp] at this
          have hpa : parse_attributes (unitBody (k1, v1) ++ (renderAttrs arest ++ [' ', '/'])) =
              (k1, v1) :: arest := by
            have := parse_attributes_render_void hattrs (by simp)
            rwa [show (renderAttrs ((k1, v1) :: arest)).drop 1 ++ [' ', '/'] =
              unitBody (k1, v1) ++ (renderAttrs arest ++ [' ', '/']) from by
                simp [renderAttrs]] at this
          rw [parse_html_optimized]
          rw [breakAt_append_cons _ pre '<' _
            (fun c hc => isWS_not_lt (hpre c hc)) (by decide)]
          simp only [hb2, hext, htr1, htrz, hpa, hslash, if_false, hvoid, if_true,
            hrec0, textElems_ws hpre, List.nil_append]
      | regular =>
        obtain ⟨hwft, hnotvoid, hx, hattrs, hchwf⟩ := wfElem_reg hwfe
        subst hx
        obtain ⟨t0, t', rfl⟩ : ∃ t0 t', t = t0 :: t' := by
          cases t with
          | nil => exact absurd rfl (wfTag_ne_nil hwft)
          | cons t0 t' => exact ⟨t0, t', rfl⟩
        have hslash : ¬(t0 = '/') := isLowerAlpha_ne_slash (wfTag_chars hwft t0 (by simp))
        have htr1 : trim (t0 :: t') = t0 :: t' :=
          trim_of_all (fun c hc => isLowerAlpha_not_ws (wfTag_chars hwft c hc))
        have hts : (Elem.mk .regular (t0 :: t') [] a ch).toStr =
            '<' :: (t0 :: t') ++ attrsToStr a ++ '>' :: '\n' :: [] ++ '\n' ::
              toStrForest ch ++ '<' :: '/' :: (t0 :: t') ++ ['>', '\n'] := by
          rw [show (Elem.mk .regular (t0 :: t') [] a ch).toStr =
            if (t0 :: t') = "NO_TAG".data then [] else if (t0 :: t') = [] then toStrForest ch
            else '<' :: (t0 :: t') ++ attrsToStr a ++ '>' :: '\n' :: [] ++ '\n' ::
              toStrForest ch ++ '<' :: '/' :: (t0 :: t') ++ ['>', '\n'] from rfl]
          rw [if_neg (wfTag_ne_NO_TAG hwft), if_neg (wfTag_ne_nil hwft)]
        cases a with
        | nil =>
          have hshape : pre ++ toStrForest (Elem.mk .regular (t0 :: t') [] [] ch :: es) ++ rest =
              pre ++ '<' :: (t0 :: (t' ++ ('>' :: '\n' :: '\n' :: (toStrForest ch ++
                ('<' :: '/' :: (t0 :: (t' ++ ('>' :: '\n' :: (toStrForest es ++ rest)))))))))
              := by
            rw [show toStrForest (Elem.mk .regular (t0 :: t') [] [] ch :: es) =
              (Elem.mk .regular (t0 :: t') [] [] ch).toStr ++ toStrForest es from rfl, hts]
            simp [attrsToStr_eq_renderAttrs, renderAttrs]
          rw [hshape]
          have hCLgood : ('<' :: '/' :: (t0 :: (t' ++ ('>' :: '\n' :: (toStrForest es ++ rest)))) : LC) = [] ∨
              ∃ xs, ('<' :: '/' :: (t0 :: (t' ++ ('>' :: '\n' :: (toStrForest es ++ rest)))) : LC) =
                '<' :: '/' :: xs ∧ '>' ∈ xs := by
            refine Or.inr ⟨t0 :: (t' ++ ('>' :: '\n' :: (toStrForest es ++ rest))), rfl, ?_⟩
            simp
          rw [hshape] at hlen hfuel
          simp only [List.length_append, List.length_cons, List.length_nil] at hlen hfuel
          have hrecC := ih ['\n', '\n'] ch
            ('<' :: '/' :: (t0 :: (t' ++ ('>' :: '\n' :: (toStrForest es ++ rest))))) fu
            (by simp only [List.length_append, List.length_cons, List.length_nil]; omega)
            (by simp only [List.length_append, List.length_cons, List.length_nil]; omega)
            (by decide) hchwf hCLgood
          rw [show (['\n', '\n'] : LC) ++ toStrForest ch ++
            ('<' :: '/' :: (t0 :: (t' ++ ('>' :: '\n' :: (toStrForest es ++ rest))))) =
            '\n' :: '\n' :: (toStrForest ch ++
              ('<' :: '/' :: (t0 :: (t' ++ ('>' :: '\n' :: (toStrForest es ++ rest))))))
            from by simp] at hrecC
          have hrecS := ih ['\n'] es rest fu
            (by simp only [List.length_append, List.length_cons, List.length_nil]; omega)
            (by simp only [List.length_append, List.length_cons, List.length_nil]; omega)
            (by decide) hwfes hrest
          rw [show (['\n'] : LC) ++ toStrForest es ++ rest =
            '\n' :: (toStrForest es ++ rest) from by simp] at hrecS
          have hb2 : breakAt (· == '>') (t0 :: (t' ++ ('>' :: '\n' :: '\n' :: (toStrForest ch ++
              ('<' :: '/' :: (t0 :: (t' ++ ('>' :: '\n' :: (toStrForest es ++ rest))))))))) =
              (t0 :: t', '>' :: '\n' :: '\n' :: (toStrForest ch ++
                ('<' :: '/' :: (t0 :: (t' ++ ('>' :: '\n' :: (toStrForest es ++ rest))))))) := by
            rw [show t0 :: (t' ++ ('>' :: '\n' :: '\n' :: (toStrForest ch ++
              ('<' :: '/' :: (t0 :: (t' ++ ('>' :: '\n' :: (toStrForest es ++ rest)))))))) =
              (t0 :: t') ++ '>' :: ('\n' :: '\n' :: (toStrForest ch ++
                ('<' :: '/' :: (t0 :: (t' ++ ('>' :: '\n' :: (toStrForest es ++ rest)))))))
              from by simp]
            exact breakAt_append_cons _ _ '>' _
              (fun c hc => isLowerAlpha_not_gt (wfTag_chars hwft c hc)) (by decide)
          have hext : extract_tag_and_attributes (t0 :: t') = (t0 :: t', []) := by
            unfold extract_tag_and_attributes
            rw [breakAt_none (fun c hc => isLowerAlpha_not_space (wfTag_chars hwft c hc))]
          have hb3 : breakAt (· == '>')
              ('<' :: '/' :: (t0 :: (t' ++ ('>' :: '\n' :: (toStrForest es ++ rest))))) =
              ('<' :: '/' :: (t0 :: t'), '>' :: ('\n' :: (toStrForest es ++ rest))) := by
            rw [show ('<' :: '/' :: (t0 :: (t' ++ ('>' :: '\n' :: (toStrForest es ++ rest)))) : LC) =
              ('<' :: '/' :: (t0 :: t')) ++ '>' :: ('\n' :: (toStrForest es ++ rest))
              from by simp]
            refine breakAt_append_cons _ _ '>' _ ?_ (by decide)
            intro c hc
            simp only [List.mem_cons] at hc
            rcases hc with h | h | h
            · subst h; decide
            · subst h; decide
            · exact isLowerAlpha_not_gt (wfTag_chars hwft c (List.mem_cons.mpr h))
          rw [parse_html_optimized]
          rw [breakAt_append_cons _ pre '<' _
            (fun c hc => isWS_not_lt (hpre c hc)) (by decide)]
          simp only [hb2, hext, htr1, parse_attributes_nil, hslash, if_false, hnotvoid,
            Bool.false_eq_true, hrecC, hb3, hrecS, textElems_ws hpre, List.nil_append,
            List.drop_succ_cons, List.drop_zero]
          simp [htr1, hrecS]
          rw [show trim ([] : LC) = [] from rfl]
          exact parse_attributes_nil
        | cons kv arest =>
          obtain ⟨k1, v1⟩ := kv
          have hshape : pre ++
              toStrForest (Elem.mk .regular (t0 :: t') [] ((k1, v1) :: arest) ch :: es) ++ rest =
              pre ++ '<' :: (t0 :: (t' ++ (' ' :: (unitBody (k1, v1) ++ (renderAttrs arest ++
                ('>' :: '\n' :: '\n' :: (toStrForest ch ++
                  ('<' :: '/' :: (t0 :: (t' ++ ('>' :: '\n' :: (toStrForest es ++ rest)))))))))))) := by
            rw [show toStrForest (Elem.mk .regular (t0 :: t') [] ((k1, v1) :: arest) ch :: es) =
              (Elem.mk .regular (t0 :: t') [] ((k1, v1) :: arest) ch).toStr ++ toStrForest es
              from rfl, hts]
            simp [attrsToStr_eq_renderAttrs, renderAttrs]
          rw [hshape]
          have hCLgood : ('<' :: '/' :: (t0 :: (t' ++ ('>' :: '\n' :: (toStrForest es ++ rest)))) : LC) = [] ∨
              ∃ xs, ('<' :: '/' :: (t0 :: (t' ++ ('>' :: '\n' :: (toStrForest es ++ rest)))) : LC) =
                '<' :: '/' :: xs ∧ '>' ∈ xs := by
            refine Or.inr ⟨t0 :: (t' ++ ('>' :: '\n' :: (toStrForest es ++ rest))), rfl, ?_⟩
            simp
          rw [hshape] at hlen hfuel
          simp only [List.length_append, List.length_cons, List.length_nil] at hlen hfuel
          have hrecC := ih ['\n', '\n'] ch
            ('<' :: '/' :: (t0 :: (t' ++ ('>' :: '\n' :: (toStrForest es ++ rest))))) fu
            (by simp only [List.length_append, List.length_cons, List.length_nil]; omega)
            (by simp only [List.length_append, List.length_cons, List.length_nil]; omega)
            (by decide) hchwf hCLgood
          rw [show (['\n', '\n'] : LC) ++ toStrForest ch ++
            ('<' :: '/' :: (t0 :: (t' ++ ('>' :: '\n' :: (toStrForest es ++ rest))))) =
            '\n' :: '\n' :: (toStrForest ch ++
              ('<' :: '/' :: (t0 :: (t' ++ ('>' :: '\n' :: (toStrForest es ++ rest))))))
            from by simp] at hrecC
          have hrecS := ih ['\n'] es rest fu
            (by simp only [List.length_append, List.length_cons, List.length_nil]; omega)
            (by simp only [List.length_append, List.length_cons, List.length_nil]; omega)
            (by decide) hwfes hrest
          rw [show (['\n'] : LC) ++ toStrForest es ++ rest =
            '\n' :: (toStrForest es ++ rest) from by simp] at hrecS
          have hb2 : breakAt (· == '>') (t0 :: (t' ++ (' ' :: (unitBody (k1, v1) ++ (renderAttrs arest ++ ('>' :: ('\n' :: '\n' :: (toStrForest ch ++ ('<' :: '/' :: (t0 :: (t' ++ ('>' :: '\n' :: (toStrForest es ++ rest))))))))))))) =
              ((t0 :: (t' ++ (' ' :: (unitBody (k1, v1) ++ renderAttrs arest)))), '>' :: ('\n' :: '\n' :: (toStrForest ch ++ ('<' :: '/' :: (t0 :: (t' ++ ('>' :: '\n' :: (toStrForest es ++ rest)))))))) := by
            rw [show (t0 :: (t' ++ (' ' :: (unitBody (k1, v1) ++ (renderAttrs arest ++ ('>' :: ('\n' :: '\n' :: (toStrForest ch ++ ('<' :: '/' :: (t0 :: (t' ++ ('>' :: '\n' :: (toStrForest es ++ rest))))))))))))) =
              (t0 :: (t' ++ (' ' :: (unitBody (k1, v1) ++ renderAttrs arest)))) ++ '>' :: ('\n' :: '\n' :: (toStrForest ch ++ ('<' :: '/' :: (t0 :: (t' ++ ('>' :: '\n' :: (toStrForest es ++ rest))))))) from by simp]
            refine breakAt_append_cons _ _ '>' _ ?_ (by decide)
            intro c hc
            refine openBody_not_gt hwft (a := (k1, v1) :: arest) hattrs c ?_
            simpa [renderAttrs] using hc
          have hext : extract_tag_and_attributes
              (t0 :: (t' ++ (' ' :: (unitBody (k1, v1) ++ renderAttrs arest)))) =
              (t0 :: t', unitBody (k1, v1) ++ renderAttrs arest) := by
            unfold extract_tag_and_attributes
            rw [show t0 :: (t' ++ (' ' :: (unitBody (k1, v1) ++ renderAttrs arest))) =
              (t0 :: t') ++ ' ' :: (unitBody (k1, v1) ++ renderAttrs arest) from by simp]
            rw [breakAt_append_cons (· == ' ') (t0 :: t') ' ' _
              (fun c hc => isLowerAlpha_not_space (wfTag_chars hwft c hc)) (by decide)]
          have htrz : trim (unitBody (k1, v1) ++ renderAttrs arest) =
              unitBody (k1, v1) ++ renderAttrs arest := attrText_trim hattrs
          have hpa : parse_attributes (unitBody (k1, v1) ++ renderAttrs arest) =
              (k1, v1) :: arest := by
            have := parse_attributes_render hattrs (by simp)
            rwa [show (renderAttrs ((k1, v1) :: arest)).drop 1 =
              unitBody (k1, v1) ++ renderAttrs arest from by simp [renderAttrs]] at this
          have hb3 : breakAt (· == '>')
              ('<' :: '/' :: (t0 :: (t' ++ ('>' :: '\n' :: (toStrForest es ++ rest))))) =
              ('<' :: '/' :: (t0 :: t'), '>' :: ('\n' :: (toStrForest es ++ rest))) := by
            rw [show ('<' :: '/' :: (t0 :: (t' ++ ('>' :: '\n' :: (toStrForest es ++ rest)))) : LC) =
              ('<' :: '/' :: (t0 :: t')) ++ '>' :: ('\n' :: (toStrForest es ++ rest))
              from by simp]
            refine breakAt_append_cons _ _ '>' _ ?_ (by decide)
            intro c hc
            simp only [List.mem_cons] at hc
            rcases hc with h | h | h
            · subst h; decide
            · subst h; decide
            · exact isLowerAlpha_not_gt (wfTag_chars hwft c (List.mem_cons.mpr h))
          rw [parse_html_optimized]
          rw [breakAt_append_cons _ pre '<' _
            (fun c hc => isWS_not_lt (hpre c hc)) (by decide)]
          simp only [hb2, hext, htr1, htrz, hpa, hslash, if_false, hnotvoid,
            Bool.false_eq_true, hrecC, hb3, hrecS, textElems_ws hpre, List.nil_append,
            List.drop_succ_cons, List.drop_zero]
          simp [htr1, hrecS]

/-- Claim C5, counterexample: a parser-produced tree containing text does
not round-trip structurally: the text node of `<p>Hi</p>` serializes as a
literal `<text>` element and reparses one level deeper (depth 3 instead of
2), so the tag nesting is not reproduced. -/
theorem claim5_counterexample :
    solve_recursive "<p>Hi</p>".data =
      .ok [Elem.mk .regular "p".data [] []
            [Elem.mk .regular "text".data "Hi".data [] []]] ∧
    solve_recursive (toStrForest
        [Elem.mk .regular "p".data [] []
          [Elem.mk .regular "text".data "Hi".data [] []]]) =
      .ok [Elem.mk .regular "p".data [] []
            [Elem.mk .regular "text".data [] []
              [Elem.mk .regular "text".data "\nHi\n".data [] []]]] ∧
    depthF [Elem.mk .regular "p".data [] []
            [Elem.mk .regular "text".data [] []
              [Elem.mk .regular "text".data "\nHi\n".data [] []]]] = 3 ∧
    depthF [Elem.mk .regular "p".data [] []
            [Elem.mk .regular "text".data "Hi".data [] []]] = 2 := by
  exact ⟨rfl, rfl, by decide, by decide⟩

/-- Claim C5, amended: the structural round-trip holds for every
well-formed TEXT-FREE tree the parser could produce — Regular and Void
nodes with lowercase alphabetic tags, sorted well-formed attribute maps
(keys of letters/digits/hyphens, values without quotes or angle brackets),
empty text everywhere: parsing the serialized output with the core parser
(`solve_recursive`, i.e. Parse minus the comment/doctype preprocessing,
which this input does not trigger) reproduces the tree EXACTLY — same
nesting, same kinds, same tags, same attribute maps.  Trees containing
text nodes do not round-trip: a text node serializes as a literal <text>
element and reparses as an extra Regular wrapper level. -/
theorem claim5_amended :
    ∀ f : List Elem, wfForest f = true → solve_recursive (toStrForest f) = .ok f := by
  intro f hwf
  unfold solve_recursive
  have h := parse_ser (toStrForest f).length [] f [] ((toStrForest f).length + 1)
    (by simp) (by simp) (by simp) hwf (Or.inl rfl)
  rw [List.nil_append, List.append_nil] at h
  rw [h]

/-- Claim C5, witness: the round-trip applied to a concrete well-formed
tree with nesting, a void element and attributes (quoted value with a
space, boolean attribute, two attributes on one tag). -/
theorem claim5_witness :
    solve_recursive (toStrForest
      [Elem.mk .regular "div".data []
        [("class".data, "a b".data), ("id".data, "m".data)]
        [Elem.mk .selfClosing "br".data [] [] [],
         Elem.mk .regular "span".data [] [("disabled".data, [])] []]]) =
    .ok [Elem.mk .regular "div".data []
          [("class".data, "a b".data), ("id".data, "m".data)]
          [Elem.mk .selfClosing "br".data [] [] [],
           Elem.mk .regular "span".data [] [("disabled".data, [])] []]] :=
  claim5_amended _ (by decide)

end HB

namespace HB

theorem getN_append_lt {s ext : Store} {i : Nat} (h : i < s.length) :
    getN (s ++ ext) i = getN s i := by
  unfold getN
  rw [List.getElem?_append_left h]

theorem getN_append_self {s : Store} {nd : Node} {ext : Store} :
    getN (s ++ nd :: ext) s.length = nd := by
  unfold getN
  rw [List.getElem?_append_right (le_refl _)]
  simp

theorem getN_set_ne {s : Store} {c i : Nat} {nd : Node} (h : c ≠ i) :
    getN (setN s c nd) i = getN s i := by
  unfold getN setN
  rw [List.getElem?_set_ne h]

theorem readback_frame : ∀ (fuel : Nat) (s s2 : Store) (ids : List Nat)
    (ts : List Elem) (used : List Nat),
    readbackL fuel s ids = some (ts, used) →
    (∀ i ∈ used, getN s2 i = getN s i) →
    readbackL fuel s2 ids = some (ts, used) := by
  intro fuel
  induction fuel with
  | zero => intro s s2 ids ts used h _; simp [readbackL] at h
  | succ fuel ih =>
    intro s s2 ids ts used h hag
    match ids with
    | [] => simpa [readbackL] using h
    | i :: is =>
      rw [readbackL] at h
      cases h1 : readbackL fuel s (getN s i).childIds with
      | none => rw [h1] at h; simp at h
      | some p1 =>
        obtain ⟨ts1, ids1⟩ := p1
        rw [h1] at h
        cases h2 : readbackL fuel s is with
        | none => rw [h2] at h; simp at h
        | some p2 =>
          obtain ⟨es, ids2⟩ := p2
          rw [h2] at h
          simp only [Option.some_inj, Prod.mk.injEq] at h
          obtain ⟨h3, h4⟩ := h
          subst h3
          subst h4
          rw [readbackL]
          rw [hag i (by simp)]
          rw [ih s s2 _ _ _ h1 (fun j hj => hag j (by simp [hj]))]
          rw [ih s s2 _ _ _ h2 (fun j hj => hag j (by simp [hj]))]

theorem copy_spec : ∀ (fuel : Nat) (s : Store) (ids : List Nat) (ts : List Elem)
    (used : List Nat) (s2 : Store) (js : List Nat),
    readbackL fuel s ids = some (ts, used) →
    (∀ i ∈ used, i < s.length) →
    copyList fuel s ids = some (s2, js) →
    ∃ used2, readbackL fuel s2 js = some (regF ts, used2) ∧
      (∀ j ∈ used2, s.length ≤ j ∧ j < s2.length) ∧
      (∃ ext, s2 = s ++ ext) := by
  intro fuel
  induction fuel with
  | zero => intro s ids ts used s2 js h _ _; simp [readbackL] at h
  | succ fuel ih =>
    intro s ids ts used s2 js h hbound hcopy
    match ids with
    | [] =>
      rw [readbackL] at h
      simp only [Option.some_inj, Prod.mk.injEq] at h
      obtain ⟨h3, h4⟩ := h
      subst h3
      subst h4
      rw [copyList] at hcopy
      simp only [Option.some_inj, Prod.mk.injEq] at hcopy
      obtain ⟨h5, h6⟩ := hcopy
      subst h5
      subst h6
      exact ⟨[], by simp [readbackL, regF], by simp, ⟨[], by simp⟩⟩
    | i :: is =>
      rw [readbackL] at h
      cases h1 : readbackL fuel s (getN s i).childIds with
      | none => rw [h1] at h; simp at h
      | some p1 =>
        obtain ⟨ts1, ids1⟩ := p1
        rw [h1] at h
        cases h2 : readbackL fuel s is with
        | none => rw [h2] at h; simp at h
        | some p2 =>
          obtain ⟨es, ids2⟩ := p2
          rw [h2] at h
          simp only [Option.some_inj, Prod.mk.injEq] at h
          obtain ⟨h3, h4⟩ := h
          subst h3
          subst h4
          rw [copyList] at hcopy
          cases hc1 : copyList fuel s (getN s i).childIds with
          | none => rw [hc1] at hcopy; simp at hcopy
          | some q1 =>
            obtain ⟨s1, newIds⟩ := q1
            simp only [hc1] at hcopy
            cases hc2 : copyList fuel
                (s1 ++ [Node.mk .regular (getN s i).tag (getN s i).text (getN s i).attrs newIds])
                is with
            | none => simp [hc2] at hcopy
            | some q2 =>
              obtain ⟨s3, js2⟩ := q2
              simp only [hc2] at hcopy
              simp only [Option.some_inj, Prod.mk.injEq] at hcopy
              obtain ⟨h5, h6⟩ := hcopy
              subst h5
              subst h6
              have hbound1 : ∀ j ∈ ids1, j < s.length :=
                fun j hj => hbound j (by simp [hj])
              have hbound2 : ∀ j ∈ ids2, j < s.length :=
                fun j hj => hbound j (by simp [hj])
              obtain ⟨u1, hru1, hb1, ext1, hext1⟩ := ih s _ _ _ _ _ h1 hbound1 hc1
              set nd' : Node :=
                Node.mk .regular (getN s i).tag (getN s i).text (getN s i).attrs newIds
                with hnd'
              have hlen1 : s.length ≤ s1.length := by
                rw [hext1]; simp
              have hframe2 : readbackL fuel (s1 ++ [nd']) is = some (es, ids2) := by
                refine readback_frame fuel s _ is es ids2 h2 ?_
                intro j hj
                rw [hext1, show (s ++ ext1) ++ [nd'] = s ++ (ext1 ++ [nd']) from by simp]
                exact getN_append_lt (hbound2 j hj)
              have hbound2b : ∀ j ∈ ids2, j < (s1 ++ [nd']).length := by
                intro j hj
                calc j < s.length := hbound2 j hj
                  _ ≤ (s1 ++ [nd']).length := by simp; omega
              obtain ⟨u2, hru2, hb2, ext2, hext2⟩ := ih _ _ _ _ _ _ hframe2 hbound2b hc2
              refine ⟨s1.length :: (u1 ++ u2), ?_, ?_, ?_⟩
              · rw [readbackL]
                have hget : getN s3 s1.length = nd' := by
                  rw [hext2, show (s1 ++ [nd']) ++ ext2 = s1 ++ nd' :: ext2 from by simp]
                  exact getN_append_self
                rw [hget]
                have hchild : readbackL fuel s3 nd'.childIds = some (regF ts1, u1) := by
                  refine readback_frame fuel s1 _ _ _ _ ?_ ?_
                  · rw [show nd'.childIds = newIds from rfl]
                    exact hru1
                  · intro j hj
                    rw [hext2, show (s1 ++ [nd']) ++ ext2 = s1 ++ (nd' :: ext2) from by simp]
                    exact getN_append_lt (hb1 j hj).2
                rw [hchild, hru2]
                rw [show nd'.kind = EKind.regular from rfl, show nd'.tag = (getN s i).tag from rfl,
                  show nd'.text = (getN s i).text from rfl,
                  show nd'.attrs = (getN s i).attrs from rfl]
                rfl
              · intro j hj
                rcases List.mem_cons.mp hj with hj | hj
                · subst hj
                  constructor
                  · exact hlen1
                  · rw [hext2]
                    simp
                · rcases List.mem_append.mp hj with hj | hj
                  · obtain ⟨hja, hjb⟩ := hb1 j hj
                    refine ⟨hja, ?_⟩
                    rw [hext2]
                    simp only [List.length_append, List.length_cons]
                    omega
                  · obtain ⟨hja, hjb⟩ := hb2 j hj
                    refine ⟨?_, hjb⟩
                    calc s.length ≤ s1.length := hlen1
                      _ ≤ (s1 ++ [nd']).length := by simp
                      _ ≤ j := hja
              · refine ⟨ext1 ++ [nd'] ++ ext2, ?_⟩
                rw [hext2, hext1]
                simp

end HB

namespace HB

mutual
theorem regE_of_allReg : ∀ e : Elem, allRegE e = true → regE e = e
  | .mk k t x a ch, h => by
    simp only [allRegE, Bool.and_eq_true, beq_iff_eq] at h
    simp only [regE, h.1, regF_of_allReg ch h.2]

theorem regF_of_allReg : ∀ l : List Elem, allRegF l = true → regF l = l
  | [], _ => rfl
  | e :: es, h => by
    simp only [allRegF, Bool.and_eq_true] at h
    simp only [regF, regE_of_allReg e h.1, regF_of_allReg es h.2]
end

end HB

namespace HB

/-- C6 counterexample: copying a div whose child is the Void element br.
`element::copy` builds the copies as plain `element` values
(`element copy = *this` and `std::make_shared<element>(child->copy())`),
so the br child is sliced to a Regular node and the copy serializes as
"<div>\n\n<br>\n\n</br>\n</div>\n" while the original serializes as
"<div>\n\n<br /></div>\n": the copy is not equal to the original. -/
theorem claim6_counterexample :
    copyList 9 [Node.mk .regular ['d','i','v'] [] [] [1],
        Node.mk .selfClosing ['b','r'] [] [] []] [0]
      = some ([Node.mk .regular ['d','i','v'] [] [] [1],
          Node.mk .selfClosing ['b','r'] [] [] [],
          Node.mk .regular ['b','r'] [] [] [],
          Node.mk .regular ['d','i','v'] [] [] [2]], [3]) ∧
    readbackL 9 [Node.mk .regular ['d','i','v'] [] [] [1],
        Node.mk .selfClosing ['b','r'] [] [] []] [0]
      = some ([Elem.mk .regular ['d','i','v'] []
          [] [Elem.mk .selfClosing ['b','r'] [] [] []]], [0, 1]) ∧
    readbackL 9 [Node.mk .regular ['d','i','v'] [] [] [1],
        Node.mk .selfClosing ['b','r'] [] [] [],
        Node.mk .regular ['b','r'] [] [] [],
        Node.mk .regular ['d','i','v'] [] [] [2]] [3]
      = some ([Elem.mk .regular ['d','i','v'] []
          [] [Elem.mk .regular ['b','r'] [] [] []]], [3, 2]) ∧
    Elem.kind (Elem.mk .regular ['b','r'] [] [] []) ≠
      Elem.kind (Elem.mk .selfClosing ['b','r'] [] [] []) ∧
    Elem.toStr (Elem.mk .regular ['d','i','v'] []
        [] [Elem.mk .regular ['b','r'] [] [] []]) ≠
      Elem.toStr (Elem.mk .regular ['d','i','v'] []
        [] [Elem.mk .selfClosing ['b','r'] [] [] []]) :=
  ⟨rfl, rfl, rfl, by decide, by decide⟩

end HB

namespace HB

/-- C6 amended: `copy()` does build an independently owned structure — the
copy lives entirely in freshly allocated nodes, reading back the original is
unaffected by the copy, and mutating any node of either tree leaves the
other's read-back unchanged — but it is NOT a faithful deep clone: every
copied node's kind collapses to Regular (C++ slicing), so the copy equals
the original exactly when the original was all-Regular already. -/
theorem claim6_amended (fuel : Nat) (s : Store) (a : Nat) (ta : Elem)
    (used : List Nat) (s2 : Store) (bs : List Nat)
    (hr : readbackL fuel s [a] = some ([ta], used))
    (hbound : ∀ i ∈ used, i < s.length)
    (hc : copyList fuel s [a] = some (s2, bs)) :
    ∃ used2,
      readbackL fuel s2 bs = some (regF [ta], used2) ∧
      (∀ j ∈ used2, s.length ≤ j ∧ j < s2.length) ∧
      readbackL fuel s2 [a] = some ([ta], used) ∧
      (∀ j ∈ used2, ∀ nd, readbackL fuel (setN s2 j nd) [a] = some ([ta], used)) ∧
      (∀ i ∈ used, ∀ nd, readbackL fuel (setN s2 i nd) bs = some (regF [ta], used2)) ∧
      (allRegE ta = true → regF [ta] = [ta]) := by
  obtain ⟨used2, hru, hfresh, ext, hext⟩ := copy_spec fuel s [a] [ta] used s2 bs hr hbound hc
  refine ⟨used2, hru, hfresh, ?_, ?_, ?_, ?_⟩
  · refine readback_frame fuel s s2 [a] [ta] used hr ?_
    intro i hi
    rw [hext]
    exact getN_append_lt (hbound i hi)
  · intro j hj nd
    refine readback_frame fuel s _ [a] [ta] used hr ?_
    intro i hi
    have hne : j ≠ i := by
      have h1 := (hfresh j hj).1
      have h2 := hbound i hi
      omega
    rw [getN_set_ne hne, hext]
    exact getN_append_lt (hbound i hi)
  · intro i hi nd
    refine readback_frame fuel s2 _ bs (regF [ta]) used2 hru ?_
    intro j hj
    have hne : i ≠ j := by
      have h1 := (hfresh j hj).1
      have h2 := hbound i hi
      omega
    rw [getN_set_ne hne]
  · intro hall
    exact regF_of_allReg [ta] (by simp [allRegF, hall])

/-- C6 witness: the amended theorem applied to a store holding the single
all-Regular element p; there the copy reads back equal to the original. -/
theorem claim6_witness :
    ∃ used2,
      readbackL 3 [Node.mk .regular ['p'] [] [] [],
          Node.mk .regular ['p'] [] [] []] [1]
        = some (regF [Elem.mk .regular ['p'] [] [] []], used2) ∧
      (∀ j ∈ used2, (1 : Nat) ≤ j ∧
        j < (([Node.mk .regular ['p'] [] [] [], Node.mk .regular ['p'] [] [] []] : Store)).length) ∧
      readbackL 3 [Node.mk .regular ['p'] [] [] [],
          Node.mk .regular ['p'] [] [] []] [0]
        = some ([Elem.mk .regular ['p'] [] [] []], [0]) ∧
      (∀ j ∈ used2, ∀ nd, readbackL 3
          (setN [Node.mk .regular ['p'] [] [] [], Node.mk .regular ['p'] [] [] []] j nd) [0]
        = some ([Elem.mk .regular ['p'] [] [] []], [0])) ∧
      (∀ i ∈ ([0] : List Nat), ∀ nd, readbackL 3
          (setN [Node.mk .regular ['p'] [] [] [], Node.mk .regular ['p'] [] [] []] i nd) [1]
        = some (regF [Elem.mk .regular ['p'] [] [] []], used2)) ∧
      (allRegE (Elem.mk .regular ['p'] [] [] []) = true →
        regF [Elem.mk .regular ['p'] [] [] []] = [Elem.mk .regular ['p'] [] [] []]) := by
  have h := claim6_amended 3 [Node.mk .regular ['p'] [] [] []] 0
    (Elem.mk .regular ['p'] [] [] []) [0]
    [Node.mk .regular ['p'] [] [] [], Node.mk .regular ['p'] [] [] []] [1]
    (by rfl) (by decide) (by rfl)
  simpa using h

end HB
